import Mathlib

/-!
Shallow embedding of the `sethoscope/wordle-brute` repository
(`src/wordle.py` and `src/apexpredator.py`) and theorems checking its
natural-language specification against the code.

Embedding conventions:
* A Python `str` word is a `List Char`; response tags are the integers
  `0/1/2` of the source (`ABSENT`/`PRESENT`/`CORRECT`).
* Python floats (scores) are embedded as rationals (`ℚ`); the claims
  checked here only involve algebraic identities that hold for both.
* A `WordList` (a `frozenset` of words) is embedded as a `List Word` where
  the code iterates it (materialising the set's fixed iteration order) and
  as its `List.toFinset` where the code uses it as a hashable set
  (cache keys, `frozenset` equality).
* The mutable loop state of `Response.from_guess` (availability flags and
  the result array) is embedded as functions `ℕ → Bool` / `ℕ → ℕ` updated
  with `Function.update`.
* The recursion `Player.score_position ↔ Host.score_position` terminates
  because candidate sets shrink strictly; it is embedded with an explicit
  fuel parameter (`none` = fuel exhausted, a state the Python recursion
  never reaches, as the theorems about it show).  The shared mutable
  `Player.score_cache` is threaded explicitly through every call.
* `max_depth` is an `Option ℕ`: `some m` is the source's integer bound
  compared with `depth == max_depth`; `none` models a search in which the
  bound is never reached (the spec's "unbounded").
* Only the sequential path (`procs <= 1`) of the guess enumeration is
  embedded; the `multiprocessing` path computes `min` of the same list.
-/

namespace WordleBrute

/-- A word: a Python string used as a sequence of letters. -/
abbrev Word := List Char

/-- `Response` of `wordle.py`: the host's feedback, a tuple of int tags. -/
structure Response where
  tags : List ℕ
deriving DecidableEq

namespace Response

/-- `Response.ABSENT` in `wordle.py`. -/
def ABSENT : ℕ := 0

/-- `Response.PRESENT` in `wordle.py`. -/
def PRESENT : ℕ := 1

/-- `Response.CORRECT` in `wordle.py`. -/
def CORRECT : ℕ := 2

/-- `Response.all_correct`: `all(t == self.CORRECT for t in self.tags)`. -/
def all_correct (r : Response) : Bool :=
  r.tags.all (fun t => t == CORRECT)

end Response

/-- The mutable state of `Response.from_guess`: `guess_avail`,
`target_avail` and `result`, one entry per index, embedded as functions. -/
structure FGState where
  ga : ℕ → Bool
  ta : ℕ → Bool
  res : ℕ → ℕ

/-- Initial state of `Response.from_guess`: all positions available,
`result = [ABSENT] * len(guess)`. -/
def FGState.init : FGState :=
  ⟨fun _ => true, fun _ => true, fun _ => Response.ABSENT⟩

/-- One iteration of pass 1 of `Response.from_guess` at guess position `i`:
`if guess[i] == target[i] and target_avail[i]`, mark CORRECT and consume
both positions. -/
def pass1Step (target guess : Word) (st : FGState) (i : ℕ) : FGState :=
  if guess.getD i '?' = target.getD i '?' ∧ st.ta i = true then
    { ga := Function.update st.ga i false,
      ta := Function.update st.ta i false,
      res := Function.update st.res i Response.CORRECT }
  else st

/-- Pass 1 of `Response.from_guess` (`wordle.py` lines 161-165). -/
def pass1 (target guess : Word) : FGState :=
  (List.range guess.length).foldl (pass1Step target guess) FGState.init

/-- One iteration of the inner loop of pass 2 at target position `j`, for
guess position `i` holding letter `gi`: on a still-available match mark
`result[i] = PRESENT` and consume `target[j]`. -/
def pass2InnerStep (target : Word) (gi : Char) (i : ℕ) (st2 : FGState)
    (j : ℕ) : FGState :=
  if st2.ta j = true ∧ gi = target.getD j '?' then
    { st2 with res := Function.update st2.res i Response.PRESENT,
               ta := Function.update st2.ta j false }
  else st2

/-- The inner loop of pass 2 (`wordle.py` lines 169-172): scan every target
position `j`.  There is no `break`: one guess letter can consume several
target letters. -/
def pass2Inner (target : Word) (gi : Char) (i : ℕ) (st : FGState) : FGState :=
  (List.range target.length).foldl (pass2InnerStep target gi i) st

/-- One iteration of pass 2 at guess position `i`: run the inner scan if
the position is still available. -/
def pass2Step (target guess : Word) (st2 : FGState) (i : ℕ) : FGState :=
  if st2.ga i = true then pass2Inner target (guess.getD i '?') i st2
  else st2

/-- Pass 2 of `Response.from_guess` (`wordle.py` lines 167-172). -/
def pass2 (target guess : Word) (st : FGState) : FGState :=
  (List.range guess.length).foldl (pass2Step target guess) st

/-- `Response.from_guess(target, guess)` of `wordle.py`: two passes, then
the result array read off as the tag tuple. -/
def Response.from_guess (target guess : Word) : Response :=
  ⟨(List.range guess.length).map (pass2 target guess (pass1 target guess)).res⟩

namespace Apexpredator

/-- `Response.ABSENT` in `apexpredator.py`. -/
def ABSENT : ℕ := 0

/-- `Response.PRESENT` in `apexpredator.py`. -/
def PRESENT : ℕ := 1

/-- `Response.CORRECT` in `apexpredator.py`. -/
def CORRECT : ℕ := 2

/-- First pass of `Response.make_response` in `apexpredator.py`
(lines 55-59), identical text to `wordle.py`'s first pass. -/
def pass1 (target guess : Word) : FGState :=
  (List.range guess.length).foldl
    (fun st i =>
      if guess.getD i '?' = target.getD i '?' ∧ st.ta i = true then
        { ga := Function.update st.ga i false,
          ta := Function.update st.ta i false,
          res := Function.update st.res i CORRECT }
      else st)
    FGState.init

/-- Inner scan of the second pass of `Response.make_response`
(lines 63-66), identical text to `wordle.py` (also no `break`). -/
def pass2Inner (target : Word) (gi : Char) (i : ℕ) (st : FGState) : FGState :=
  (List.range target.length).foldl
    (fun st2 j =>
      if st2.ta j = true ∧ gi = target.getD j '?' then
        { st2 with res := Function.update st2.res i PRESENT,
                   ta := Function.update st2.ta j false }
      else st2)
    st

/-- Second pass of `Response.make_response` (lines 61-66). -/
def pass2 (target guess : Word) (st : FGState) : FGState :=
  (List.range guess.length).foldl
    (fun st2 i =>
      if st2.ga i = true then pass2Inner target (guess.getD i '?') i st2
      else st2)
    st

/-- `Response.make_response(target, guess)` of `apexpredator.py`
(lines 47-67): returns the tag tuple. -/
def make_response (target guess : Word) : List ℕ :=
  (List.range guess.length).map (pass2 target guess (pass1 target guess)).res

end Apexpredator

/-- Follows the spec's words (§4.1, pass 2): "for each position `i` not yet
resolved, scan remaining (unconsumed) target positions left-to-right; if
`guess[i]` matches an unconsumed target letter, mark PRESENT and consume
that target letter" — i.e. exactly the first unconsumed match is consumed.
Reference algorithm for claim C1, to be compared with `pass2`. -/
def specPass2 (target guess : Word) (st : FGState) : FGState :=
  (List.range guess.length).foldl
    (fun st2 i =>
      if st2.ga i = true then
        match (List.range target.length).find?
            (fun j => st2.ta j && (guess.getD i '?' == target.getD j '?')) with
        | some j =>
            { st2 with res := Function.update st2.res i Response.PRESENT,
                       ta := Function.update st2.ta j false }
        | none => st2
      else st2)
    st

/-- The spec's reference feedback computation (pass 1 as in the code, the
single-consumption pass 2 of `specPass2`). -/
def specResponse (target guess : Word) : Response :=
  ⟨(List.range guess.length).map (specPass2 target guess (pass1 target guess)).res⟩

/-- `Evaluation` of `wordle.py`: score (a float, embedded as `ℚ`),
`best_word` (`None ↦ none`, a string `w ↦ some w`, the `''` placeholder
`↦ some []`), and the turn histogram (`Histogram`, a list of counts). -/
structure Evaluation where
  score : ℚ
  best_word : Option Word
  histogram : List ℕ
deriving DecidableEq

/-- `Histogram.update`: `self[i] += other[i]` for every index of `other`,
gap-filling missing indices of `self` with zeros. -/
def hUpdate : List ℕ → List ℕ → List ℕ
  | h, [] => h
  | [], b :: bs => b :: hUpdate [] bs
  | a :: as2, b :: bs => (a + b) :: hUpdate as2 bs

/-- One cache mapping (a dict keyed by `frozenset`-of-words). -/
abbrev CacheLayer := Finset Word → Option Evaluation

/-- `PlayerScoreCache` of `wordle.py`: a `ChainMap` whose `maps[0]` is the
writable local layer and whose remaining maps are read-only layers loaded
from snapshot files. -/
structure PlayerScoreCache where
  localMap : CacheLayer
  layers : List CacheLayer

/-- `PlayerScoreCache()` = `ChainMap({})`: empty local layer, no loaded
layers. -/
def PlayerScoreCache.init : PlayerScoreCache :=
  ⟨fun _ => none, []⟩

/-- `ChainMap` lookup over a list of maps: the first map containing the key
wins; `none` models the final `KeyError`. -/
def firstHit : List CacheLayer → Finset Word → Option Evaluation
  | [], _ => none
  | m :: ms, k =>
    match m k with
    | some v => some v
    | none => firstHit ms k

/-- `self.score_cache[wordlist]` (caught `KeyError ↦ none`): `ChainMap`
lookup over `maps = [local] + layers`. -/
def PlayerScoreCache.lookup (c : PlayerScoreCache) (k : Finset Word) :
    Option Evaluation :=
  firstHit (c.localMap :: c.layers) k

/-- `Player.__init__` sets `self.score_cache.BIGGISH = 1000`. -/
def BIGGISH : ℚ := 1000

/-- `PlayerScoreCache.add` (`wordle.py` lines 106-113): skip if
`evaluation.score > self.BIGGISH`, else `self[wordlist] = evaluation`
(a `ChainMap` write, which goes to `maps[0]`, the local layer). -/
def PlayerScoreCache.add (c : PlayerScoreCache) (k : Finset Word)
    (ev : Evaluation) : PlayerScoreCache :=
  if BIGGISH < ev.score then c
  else { c with localMap := Function.update c.localMap k (some ev) }

/-- What `open(filename)` + `pickle.load` finds for one listed snapshot
filename: `none` models a missing file (`open` raises
`FileNotFoundError`), `some m` the unpickled mapping. -/
abbrev SnapshotFile := Option CacheLayer

/-- `PlayerScoreCache.load` (`wordle.py` lines 125-133): reset
`self.maps = [{}]`, then for each filename in order append the unpickled
mapping; `except FileNotFoundError` logs a warning and continues, so a
missing file contributes no layer. -/
def PlayerScoreCache.load (files : List SnapshotFile) : PlayerScoreCache :=
  { localMap := fun _ => none,
    layers := files.foldl
      (fun ms f =>
        match f with
        | some m => ms ++ [m]
        | none => ms)
      [] }

/-- Insertion-order key list of the `defaultdict(set)` grouping in
`Host.score_position`: the distinct responses in order of first
occurrence. -/
def firstOccs (rs : List Response) : List Response :=
  rs.foldl (fun acc r => if r ∈ acc then acc else acc ++ [r]) []

/-- The `by_response` grouping of `Host.score_position` (`wordle.py`
lines 221-223) as an association list in key insertion order; the words of
each group are the sublist of `wordlist` producing that response. -/
def partitionsBy (wordlist : List Word) (player_guess : Word) :
    List (Response × List Word) :=
  (firstOccs (wordlist.map (fun w => Response.from_guess w player_guess))).map
    (fun r => (r, wordlist.filter (fun w => Response.from_guess w player_guess = r)))

/-- Type of the child scorer the host invokes
(`player.score_position(WordList(words), response, self, depth, max_depth)`
with the player, depth and bound baked in); `none` = out of fuel. -/
abbrev ScoreChild :=
  List Word → Response → PlayerScoreCache → Option (Evaluation × PlayerScoreCache)

/-- `Host.score_position` (`wordle.py` lines 213-238): group `wordlist` by
the response each word as hidden target gives to `player_guess`; for each
group call the player and accumulate
`ev.score += len(words) * pev.score / len(wordlist)` and
`ev.histogram.update(pev.histogram)` starting from `Evaluation(0.0)`.
The host itself never touches the score cache; the cache is threaded only
through the child calls.  `hostStep` is one iteration of the `for response,
words in by_response.items()` loop; `hostScore` is the whole method. -/
def hostStep (scoreChild : ScoreChild) (wordlist : List Word)
    (acc : Option (Evaluation × PlayerScoreCache)) (pr : Response × List Word) :
    Option (Evaluation × PlayerScoreCache) :=
  match acc with
  | none => none
  | some (ev, c1) =>
    match scoreChild pr.2 pr.1 c1 with
    | none => none
    | some (pev, c2) =>
      some (⟨ev.score + (pr.2.length : ℚ) * pev.score / (wordlist.length : ℚ),
             ev.best_word,
             hUpdate ev.histogram pev.histogram⟩, c2)

def hostScore (scoreChild : ScoreChild) (wordlist : List Word)
    (player_guess : Word) (c : PlayerScoreCache) :
    Option (Evaluation × PlayerScoreCache) :=
  (partitionsBy wordlist player_guess).foldl (hostStep scoreChild wordlist)
    (some (⟨0, none, []⟩, c))

/-- `Player.BIGNUM = 1000000`, the penalty for not winning. -/
def BIGNUM : ℚ := 1000000

/-- `guess_list = [guess] if guess else wordlist` in `Player.score_position`. -/
def guessListOf (guess : Option Word) (wordlist : List Word) : List Word :=
  match guess with
  | some gw => [gw]
  | none => wordlist

/-- `min` over the `(Evaluation, word)` pairs produced by the guess loop:
Python's tuple comparison only ever compares the `Evaluation`s (they are
distinct objects, so `==` is false and `Evaluation.__lt__`, i.e. score
comparison, decides), and `min` keeps the first of equally scored pairs;
`none` models `min` raising on an empty sequence. -/
def selectMin : List (Evaluation × Word) → Option (Evaluation × Word)
  | [] => none
  | x :: xs =>
    some (xs.foldl (fun best y => if y.1.score < best.1.score then y else best) x)

/-- The sequential evaluation `list(map(get_ev, guess_list))` of
`Player.score_position`, threading the shared mutable score cache through
the host calls in order. -/
def runGuesses
    (getEv : Word → PlayerScoreCache → Option (Evaluation × PlayerScoreCache)) :
    List Word → PlayerScoreCache →
    Option (List (Evaluation × Word) × PlayerScoreCache)
  | [], c => some ([], c)
  | gw :: gs, c =>
    match getEv gw c with
    | none => none
    | some (ev, c1) =>
      match runGuesses getEv gs c1 with
      | none => none
      | some (rest, c2) => some ((ev, gw) :: rest, c2)

/-- `Player.score_position` (`wordle.py` lines 272-304), sequential path,
with explicit fuel (see the module docstring).  Branches in source order:
all-correct response → win `Evaluation(0, '', Histogram((1,)))`;
`depth == max_depth` → `Evaluation(BIGNUM, '', Histogram())`; cache hit →
cached value; else `depth += 1`, `guess_list = [guess] if guess else
wordlist`, score every guess through the host, take the minimum, add one
turn (`score += 1`, histogram shifted right, `best_word` set) and cache the
result unless a forced guess was supplied. -/
def playerScore : ℕ → List Word → Option Response → ℕ → Option ℕ →
    Option Word → PlayerScoreCache → Option (Evaluation × PlayerScoreCache)
  | 0, _, _, _, _, _, _ => none
  | fuel + 1, wordlist, host_response, depth, max_depth, guess, c =>
    if (host_response.map Response.all_correct).getD false then
      some (⟨0, some [], [1]⟩, c)
    else if some depth = max_depth then
      some (⟨BIGNUM, some [], []⟩, c)
    else
      match c.lookup wordlist.toFinset with
      | some ev => some (ev, c)
      | none =>
        let guess_list := guessListOf guess wordlist
        match runGuesses
            (fun gw c1 =>
              hostScore
                (fun part resp c2 =>
                  playerScore fuel part (some resp) (depth + 1) max_depth none c2)
                wordlist gw c1)
            guess_list c with
        | none => none
        | some (results, c1) =>
          match selectMin results with
          | none => none
          | some (ev, best_word) =>
            let ev2 : Evaluation := ⟨ev.score + 1, some best_word, 0 :: ev.histogram⟩
            some (ev2, if guess.isNone then c1.add wordlist.toFinset ev2 else c1)

/-- The `get_ev` closure (`Player._BoundHostCall`): score one guess through
the host, children scored by the player at the already incremented depth
with no forced guess. -/
def getEv (fuel : ℕ) (wordlist : List Word) (depth1 : ℕ)
    (max_depth : Option ℕ) :
    Word → PlayerScoreCache → Option (Evaluation × PlayerScoreCache) :=
  fun gw c1 =>
    hostScore
      (fun part resp c2 => playerScore fuel part (some resp) depth1 max_depth none c2)
      wordlist gw c1

/-- `Player.start`: `score_position(wordlist, None, host, 0, max_depth,
guess, procs)` on the player's current cache (`PlayerScoreCache.init` for a
fresh `Player()`). -/
def playerStart (fuel : ℕ) (wordlist : List Word) (max_depth : Option ℕ)
    (guess : Option Word) (c : PlayerScoreCache) :
    Option (Evaluation × PlayerScoreCache) :=
  playerScore fuel wordlist none 0 max_depth guess c

/-- One child Evaluation per partition, threading the child scorer through
the partitions in order (spec-side decomposition used by `hostSpec`). -/
def threadParts (scoreChild : ScoreChild) :
    List (Response × List Word) → PlayerScoreCache →
    Option (List ((Response × List Word) × Evaluation) × PlayerScoreCache)
  | [], c => some ([], c)
  | p :: ps, c =>
    match scoreChild p.2 p.1 c with
    | none => none
    | some (ev, c1) =>
      match threadParts scoreChild ps c1 with
      | none => none
      | some (rest, c2) => some ((p, ev) :: rest, c2)

/-- Follows the spec's words for Host aggregation (claim C4): obtain one
child Evaluation per partition, then
`score = (Σ over partitions |partition| · child.score) / |candidates|` and
the histogram is the element-wise sum of the child histograms.  (The code's
`Evaluation` carries no failure-set component, so the spec's "failure sets
are unioned" clause has no code counterpart to aggregate.) -/
def hostSpec (scoreChild : ScoreChild) (wordlist : List Word)
    (player_guess : Word) (c : PlayerScoreCache) :
    Option (Evaluation × PlayerScoreCache) :=
  match threadParts scoreChild (partitionsBy wordlist player_guess) c with
  | none => none
  | some (pairs, c1) =>
    some (⟨(pairs.map (fun pe => (pe.1.2.length : ℚ) * pe.2.score)).sum /
             (wordlist.length : ℚ),
           none,
           (pairs.map (fun pe => pe.2.histogram)).foldl hUpdate []⟩, c1)

/-- The Python attribute `self.words` on a `WordList`: `WordList`
subclasses `frozenset` and no code in the repository ever assigns a
`words` attribute, so the lookup finds nothing (and raises
`AttributeError`). -/
def wordsAttr (_s : Finset Word) : Option (List Word) := none

/-- The Python exception a statement of `WordList.filter` raises. -/
inductive PyError
  | attributeError
deriving DecidableEq

/-- `must` in `WordList.filter`: the guess letters at positions whose tag
is not ABSENT. -/
def must (guess : Word) (response : Response) : Finset Char :=
  ((guess.enum.filter
      (fun p => response.tags.getD p.1 0 ≠ Response.ABSENT)).map Prod.snd).toFinset

/-- `mustnot` in `WordList.filter`: the guess letters at ABSENT positions
that are not in `must`. -/
def mustnot (guess : Word) (response : Response) : Finset Char :=
  ((guess.enum.filter
      (fun p => response.tags.getD p.1 0 = Response.ABSENT ∧
                p.2 ∉ must guess response)).map Prod.snd).toFinset

/-- `matches` in `WordList.filter`: the `(position, letter)` pairs of the
CORRECT positions. -/
def matchesOf (guess : Word) (response : Response) : List (ℕ × Char) :=
  guess.enum.filter (fun p => response.tags.getD p.1 0 = Response.CORRECT)

/-- `WordList.filter` exactly as written (`wordle.py` lines 189-206): the
generator iterates `self.words`, an attribute a `WordList` built from words
does not have, so evaluating it raises `AttributeError` before any word is
tested. -/
def WordList.filter (s : Finset Word) (guess : Word) (response : Response) :
    Except PyError (Finset Word) :=
  match wordsAttr s with
  | none => Except.error PyError.attributeError
  | some ws =>
    Except.ok
      ((ws.filter
          (fun w => decide (must guess response ⊆ w.toFinset ∧
                    Disjoint (mustnot guess response) w.toFinset ∧
                    (∀ p ∈ matchesOf guess response, w.getD p.1 '?' = p.2) ∧
                    Response.from_guess w guess = response))).toFinset)

/-- `WordList.filter` with the one-token repair `self.words → self`
(the evident intent: iterate the set's own words): keep the words passing
the three quick checks and the authoritative full recomputation. -/
def filterFixed (s : Finset Word) (guess : Word) (response : Response) :
    Finset Word :=
  s.filter
    (fun w => must guess response ⊆ w.toFinset ∧
              Disjoint (mustnot guess response) w.toFinset ∧
              (∀ p ∈ matchesOf guess response, w.getD p.1 '?' = p.2) ∧
              Response.from_guess w guess = response)

/-- Cache soundness for histogram conservation: every evaluation a lookup
can return has a histogram totalling the keyed candidate-set size. -/
def goodCache (c : PlayerScoreCache) : Prop :=
  ∀ k ev, c.lookup k = some ev → ev.histogram.sum = k.card

/-- The local-layer score invariant of claim C7: every entry of the
writable local layer scores at most `BIGGISH`. -/
def localInv (c : PlayerScoreCache) : Prop :=
  ∀ k ev, c.localMap k = some ev → ev.score ≤ BIGGISH

/-- Counting measure for claim C2: how many guess positions holding letter
`L` carry a non-ABSENT tag in the result state `res`. -/
def taggedCount (guess : Word) (res : ℕ → ℕ) (L : Char) : ℕ :=
  ((Finset.range guess.length).filter
    (fun i => guess.getD i '?' = L ∧ res i ≠ Response.ABSENT)).card

/-- Counting measure for claim C2: how many target positions holding
letter `L` have been consumed (`target_avail[j] = False`). -/
def consumedCount (target : Word) (ta : ℕ → Bool) (L : Char) : ℕ :=
  ((Finset.range target.length).filter
    (fun j => target.getD j '?' = L ∧ ta j = false)).card


/-! ## Theorems -/

/-- Claim C10: `Response.make_response` of `apexpredator.py` and
`Response.from_guess` of `wordle.py` compute the same tag tuple on every
pair of words (the two sources are token-for-token the same algorithm,
including the missing `break` in pass 2). -/
theorem C10_make_response_eq_from_guess (target guess : Word) :
    Apexpredator.make_response target guess =
      (Response.from_guess target guess).tags := rfl

/-- Claim C1 (code bug): the code's pass 2 has no `break`, so for target
"ERASE" and guess "SPEED" the guess letter E at index 2 consumes both
target Es and index 3 is tagged ABSENT: the code yields tags
`(1,0,1,0,0)` where the spec's two-pass reference algorithm (consume
exactly one target letter per PRESENT) yields `(1,0,1,1,0)`. -/
theorem C1_erase_speed_divergence :
    Response.from_guess ['E','R','A','S','E'] ['S','P','E','E','D'] =
      ⟨[Response.PRESENT, Response.ABSENT, Response.PRESENT,
        Response.ABSENT, Response.ABSENT]⟩ ∧
    specResponse ['E','R','A','S','E'] ['S','P','E','E','D'] =
      ⟨[Response.PRESENT, Response.ABSENT, Response.PRESENT,
        Response.PRESENT, Response.ABSENT]⟩ ∧
    Response.from_guess ['E','R','A','S','E'] ['S','P','E','E','D'] ≠
      specResponse ['E','R','A','S','E'] ['S','P','E','E','D'] := by
  refine ⟨by decide, by decide, by decide⟩

/-- Claim C5 (code bug): `WordList.filter` dereferences `self.words`, an
attribute no `WordList` built from words has, so any call raises
`AttributeError` instead of returning the consistent subset. -/
theorem C5_filter_raises_attribute_error :
    WordList.filter {['A','B']} ['A','B'] ⟨[Response.CORRECT, Response.CORRECT]⟩ =
      Except.error PyError.attributeError := rfl

/-- Claim C3 (counterexample): at the depth bound the code returns the
fixed penalty `BIGNUM = 1000000` whatever the candidate set, so the
penalty is not proportional to the number of remaining candidates: the
same score is returned for a 1-word and a 2-word candidate set, and no
single proportionality constant fits both.  (The returned Evaluation is
exactly `⟨1000000, '', []⟩` — it has no failures field at all.) -/
theorem C3_penalty_not_proportional :
    playerScore 1 [['A']] none 3 (some 3) none PlayerScoreCache.init =
      some (⟨BIGNUM, some [], []⟩, PlayerScoreCache.init) ∧
    playerScore 1 [['A'], ['B']] none 3 (some 3) none PlayerScoreCache.init =
      some (⟨BIGNUM, some [], []⟩, PlayerScoreCache.init) ∧
    ¬ ∃ k : ℚ,
        BIGNUM = k * (([['A']] : List Word).length : ℚ) ∧
        BIGNUM = k * (([['A'], ['B']] : List Word).length : ℚ) := by
  refine ⟨rfl, rfl, ?_⟩
  rintro ⟨k, h1, h2⟩
  simp only [List.length_cons, List.length_nil, BIGNUM] at h1 h2
  push_cast at h1 h2
  linarith

/-- Claim C3 (amended): whenever the incoming response is not a full
match and `depth` equals the configured `max_depth`, `Player.score_position`
returns the terminal Evaluation with the constant penalty score
`BIGNUM = 1000000` (independent of the candidate-set size), the `''`
best-word placeholder and an empty histogram (zero wins); the code's
`Evaluation` has no failures field. -/
theorem C3_depth_bound_terminal (fuel : ℕ) (S : List Word)
    (hr : Option Response) (depth : ℕ) (guess : Option Word)
    (c : PlayerScoreCache)
    (hhr : (hr.map Response.all_correct).getD false = false) :
    playerScore (fuel + 1) S hr depth (some depth) guess c =
      some (⟨BIGNUM, some [], []⟩, c) := by
  simp [playerScore, hhr]

/-- Witness for `C3_depth_bound_terminal` at a concrete input. -/
theorem C3_depth_bound_terminal_witness :
    ((none : Option Response).map Response.all_correct).getD false = false ∧
    playerScore 1 [['A']] none 3 (some 3) none PlayerScoreCache.init =
      some (⟨BIGNUM, some [], []⟩, PlayerScoreCache.init) :=
  ⟨rfl, C3_depth_bound_terminal 0 [['A']] none 3 none PlayerScoreCache.init rfl⟩


lemma pass1_aux (target guess : Word) (k : ℕ) :
    ∀ i : ℕ,
      (((List.range k).foldl (pass1Step target guess) FGState.init).ga i = true
         ↔ ¬(i < k ∧ guess.getD i '?' = target.getD i '?'))
      ∧ (((List.range k).foldl (pass1Step target guess) FGState.init).ta i = true
         ↔ ¬(i < k ∧ guess.getD i '?' = target.getD i '?'))
      ∧ ((List.range k).foldl (pass1Step target guess) FGState.init).res i
         = (if i < k ∧ guess.getD i '?' = target.getD i '?' then Response.CORRECT
            else Response.ABSENT) := by
  induction k with
  | zero => simp [FGState.init]
  | succ k ih =>
    intro i
    rw [List.range_succ, List.foldl_append, List.foldl_cons, List.foldl_nil]
    have htak : ((List.range k).foldl (pass1Step target guess) FGState.init).ta k = true :=
      (ih k).2.1.mpr (by omega)
    by_cases hm : guess.getD k '?' = target.getD k '?'
    · rw [pass1Step, if_pos ⟨hm, htak⟩]
      dsimp only
      rcases eq_or_ne i k with rfl | hne
      · refine ⟨?_, ?_, ?_⟩
        · rw [Function.update_same]
          exact ⟨fun h => absurd h (by simp), fun h => absurd ⟨Nat.lt_succ_self i, hm⟩ h⟩
        · rw [Function.update_same]
          exact ⟨fun h => absurd h (by simp), fun h => absurd ⟨Nat.lt_succ_self i, hm⟩ h⟩
        · rw [Function.update_same, if_pos ⟨Nat.lt_succ_self i, hm⟩]
      · simp only [Function.update_noteq hne]
        have hiff : (i < k + 1 ∧ guess.getD i '?' = target.getD i '?')
            ↔ (i < k ∧ guess.getD i '?' = target.getD i '?') :=
          ⟨fun h => ⟨by omega, h.2⟩, fun h => ⟨by omega, h.2⟩⟩
        simp only [hiff]
        exact ih i
    · rw [pass1Step, if_neg (fun hc => hm hc.1)]
      have hiff : (i < k + 1 ∧ guess.getD i '?' = target.getD i '?')
          ↔ (i < k ∧ guess.getD i '?' = target.getD i '?') := by
        constructor
        · rintro ⟨h1, h2⟩
          rcases eq_or_ne i k with rfl | hne
          · exact absurd h2 hm
          · exact ⟨by omega, h2⟩
        · rintro ⟨h1, h2⟩; exact ⟨by omega, h2⟩
      simp only [hiff]
      exact ih i

lemma pass1_ga (target guess : Word) (i : ℕ) :
    (pass1 target guess).ga i = true
      ↔ ¬(i < guess.length ∧ guess.getD i '?' = target.getD i '?') :=
  (pass1_aux target guess guess.length i).1

lemma pass1_ta (target guess : Word) (i : ℕ) :
    (pass1 target guess).ta i = true
      ↔ ¬(i < guess.length ∧ guess.getD i '?' = target.getD i '?') :=
  (pass1_aux target guess guess.length i).2.1

lemma pass1_res (target guess : Word) (i : ℕ) :
    (pass1 target guess).res i
      = (if i < guess.length ∧ guess.getD i '?' = target.getD i '?'
         then Response.CORRECT else Response.ABSENT) :=
  (pass1_aux target guess guess.length i).2.2

lemma pass2Inner_aux (target : Word) (gi : Char) (i : ℕ) (st : FGState) (k : ℕ) :
    (∀ i2, ((List.range k).foldl (pass2InnerStep target gi i) st).ga i2 = st.ga i2)
    ∧ (∀ j, ((List.range k).foldl (pass2InnerStep target gi i) st).ta j = true
         ↔ (st.ta j = true ∧ ¬(j < k ∧ gi = target.getD j '?')))
    ∧ (∀ i2, i2 ≠ i →
         ((List.range k).foldl (pass2InnerStep target gi i) st).res i2 = st.res i2)
    ∧ ((∃ j2, j2 < k ∧ st.ta j2 = true ∧ gi = target.getD j2 '?') →
         ((List.range k).foldl (pass2InnerStep target gi i) st).res i = Response.PRESENT)
    ∧ (¬(∃ j2, j2 < k ∧ st.ta j2 = true ∧ gi = target.getD j2 '?') →
         ((List.range k).foldl (pass2InnerStep target gi i) st).res i = st.res i) := by
  induction k with
  | zero =>
    refine ⟨fun _ => rfl, fun j => by simp, fun _ _ => rfl, ?_, fun _ => rfl⟩
    rintro ⟨j2, hj2, -⟩; omega
  | succ k ih =>
    obtain ⟨ihga, ihta, ihother, ihyes, ihno⟩ := ih
    rw [List.range_succ, List.foldl_append, List.foldl_cons, List.foldl_nil]
    have htak : ((List.range k).foldl (pass2InnerStep target gi i) st).ta k = true
        ↔ st.ta k = true := by
      rw [ihta k]
      exact ⟨fun h => h.1, fun h => ⟨h, by omega⟩⟩
    have hexiff : (∃ j2, j2 < k + 1 ∧ st.ta j2 = true ∧ gi = target.getD j2 '?')
        ↔ ((∃ j2, j2 < k ∧ st.ta j2 = true ∧ gi = target.getD j2 '?')
            ∨ (st.ta k = true ∧ gi = target.getD k '?')) := by
      constructor
      · rintro ⟨j2, hj2, hta2, hm2⟩
        rcases eq_or_ne j2 k with rfl | hne
        · exact Or.inr ⟨hta2, hm2⟩
        · exact Or.inl ⟨j2, by omega, hta2, hm2⟩
      · rintro (⟨j2, hj2, hta2, hm2⟩ | ⟨hta2, hm2⟩)
        · exact ⟨j2, by omega, hta2, hm2⟩
        · exact ⟨k, by omega, hta2, hm2⟩
    by_cases hc : st.ta k = true ∧ gi = target.getD k '?'
    · rw [pass2InnerStep, if_pos ⟨htak.mpr hc.1, hc.2⟩]
      dsimp only
      refine ⟨fun i2 => ihga i2, ?_, ?_, ?_, ?_⟩
      · intro j
        rcases eq_or_ne j k with rfl | hne
        · rw [Function.update_same]
          constructor
          · intro h; exact absurd h (by simp)
          · rintro ⟨-, h2⟩; exact absurd ⟨by omega, hc.2⟩ h2
        · rw [Function.update_noteq hne, ihta j]
          have hiff : (j < k + 1 ∧ gi = target.getD j '?')
              ↔ (j < k ∧ gi = target.getD j '?') :=
            ⟨fun h => ⟨by omega, h.2⟩, fun h => ⟨by omega, h.2⟩⟩
          simp only [hiff]
      · intro i2 hne
        rw [Function.update_noteq hne]
        exact ihother i2 hne
      · intro _
        rw [Function.update_same]
      · intro hno2
        exact absurd (hexiff.mpr (Or.inr hc)) hno2
    · rw [pass2InnerStep, if_neg (fun hx => hc ⟨htak.mp hx.1, hx.2⟩)]
      have hexiff2 : (∃ j2, j2 < k + 1 ∧ st.ta j2 = true ∧ gi = target.getD j2 '?')
          ↔ (∃ j2, j2 < k ∧ st.ta j2 = true ∧ gi = target.getD j2 '?') := by
        rw [hexiff]
        exact ⟨fun h => h.elim id (fun h2 => absurd h2 hc), Or.inl⟩
      refine ⟨ihga, ?_, ihother, ?_, ?_⟩
      · intro j
        rw [ihta j]
        constructor
        · rintro ⟨h1, h2⟩
          refine ⟨h1, ?_⟩
          rintro ⟨hlt, hm2⟩
          rcases eq_or_ne j k with rfl | hne
          · exact hc ⟨h1, hm2⟩
          · exact h2 ⟨by omega, hm2⟩
        · rintro ⟨h1, h2⟩
          exact ⟨h1, fun hx => h2 ⟨by omega, hx.2⟩⟩
      · intro hyes
        exact ihyes (hexiff2.mp hyes)
      · intro hno2
        exact ihno (fun hx => hno2 (hexiff2.mpr hx))


lemma pass2Inner_ga (target : Word) (gi : Char) (i : ℕ) (st : FGState) :
    ∀ i2, (pass2Inner target gi i st).ga i2 = st.ga i2 :=
  (pass2Inner_aux target gi i st target.length).1

lemma pass2Inner_ta (target : Word) (gi : Char) (i : ℕ) (st : FGState) :
    ∀ j, (pass2Inner target gi i st).ta j = true
      ↔ (st.ta j = true ∧ ¬(j < target.length ∧ gi = target.getD j '?')) :=
  (pass2Inner_aux target gi i st target.length).2.1

lemma pass2Inner_res_other (target : Word) (gi : Char) (i : ℕ) (st : FGState) :
    ∀ i2, i2 ≠ i → (pass2Inner target gi i st).res i2 = st.res i2 :=
  (pass2Inner_aux target gi i st target.length).2.2.1

lemma pass2Inner_res_hit (target : Word) (gi : Char) (i : ℕ) (st : FGState) :
    (∃ j2, j2 < target.length ∧ st.ta j2 = true ∧ gi = target.getD j2 '?') →
      (pass2Inner target gi i st).res i = Response.PRESENT :=
  (pass2Inner_aux target gi i st target.length).2.2.2.1

lemma pass2Inner_res_miss (target : Word) (gi : Char) (i : ℕ) (st : FGState) :
    ¬(∃ j2, j2 < target.length ∧ st.ta j2 = true ∧ gi = target.getD j2 '?') →
      (pass2Inner target gi i st).res i = st.res i :=
  (pass2Inner_aux target gi i st target.length).2.2.2.2

lemma pass2Inner_ta_false (target : Word) (gi : Char) (i : ℕ) (st : FGState)
    (j : ℕ) (h : st.ta j = false) : (pass2Inner target gi i st).ta j = false := by
  rcases Bool.eq_false_or_eq_true ((pass2Inner target gi i st).ta j) with ht | hf
  · have := (pass2Inner_ta target gi i st j).mp ht
    rw [this.1] at h
    exact absurd h (by simp)
  · exact hf

lemma foldl_inv {σ α : Type _} (f : σ → α → σ) (P : σ → Prop) :
    ∀ (l : List α) (s : σ), (∀ s2 a, a ∈ l → P s2 → P (f s2 a)) → P s →
      P (l.foldl f s) := by
  intro l
  induction l with
  | nil => intro s _ h; simpa using h
  | cons a l ihl =>
    intro s hstep h
    rw [List.foldl_cons]
    exact ihl (f s a) (fun s2 b hb => hstep s2 b (List.mem_cons_of_mem a hb))
      (hstep s a (List.mem_cons_self a l) h)

lemma pass2_ga (target guess : Word) (st0 : FGState) :
    ∀ i, (pass2 target guess st0).ga i = st0.ga i := by
  refine foldl_inv (pass2Step target guess) (fun s => ∀ i, s.ga i = st0.ga i)
    (List.range guess.length) st0 ?_ (fun _ => rfl)
  intro s a _ hP i
  rw [pass2Step]
  by_cases hga : s.ga a = true
  · rw [if_pos hga, pass2Inner_ga]
    exact hP i
  · rw [if_neg hga]
    exact hP i

lemma pass2_shape (target guess : Word) (st0 : FGState) :
    ∀ i, (pass2 target guess st0).res i = st0.res i ∨
      ((pass2 target guess st0).res i = Response.PRESENT ∧ st0.ga i = true) := by
  have main := foldl_inv (pass2Step target guess)
    (fun s => (∀ i, s.ga i = st0.ga i) ∧
      (∀ i, s.res i = st0.res i ∨ (s.res i = Response.PRESENT ∧ st0.ga i = true)))
    (List.range guess.length) st0 ?_ ⟨fun _ => rfl, fun _ => Or.inl rfl⟩
  · exact main.2
  intro s a _ hP
  rw [pass2Step]
  by_cases hga : s.ga a = true
  swap
  · rw [if_neg hga]; exact hP
  rw [if_pos hga]
  refine ⟨fun i => by rw [pass2Inner_ga]; exact hP.1 i, fun i => ?_⟩
  rcases eq_or_ne i a with rfl | hne
  · by_cases hex : ∃ j2, j2 < target.length ∧ s.ta j2 = true ∧
        guess.getD i '?' = target.getD j2 '?'
    · refine Or.inr ⟨pass2Inner_res_hit target (guess.getD i '?') i s hex, ?_⟩
      rw [← hP.1 i]
      exact hga
    · rw [pass2Inner_res_miss target (guess.getD i '?') i s hex]
      exact hP.2 i
  · rw [pass2Inner_res_other target (guess.getD a '?') a s i hne]
    exact hP.2 i

lemma pass2_present_src (target guess : Word) (st0 : FGState) :
    ∀ i, (pass2 target guess st0).res i = Response.PRESENT →
      st0.res i = Response.PRESENT ∨
        ∃ j, j < target.length ∧ guess.getD i '?' = target.getD j '?' := by
  refine foldl_inv (pass2Step target guess)
    (fun s => ∀ i, s.res i = Response.PRESENT →
      (st0.res i = Response.PRESENT ∨
        ∃ j, j < target.length ∧ guess.getD i '?' = target.getD j '?'))
    (List.range guess.length) st0 ?_ (fun _ h => Or.inl h)
  intro s a _ hP i hres
  rw [pass2Step] at hres
  by_cases hga : s.ga a = true
  swap
  · rw [if_neg hga] at hres; exact hP i hres
  rw [if_pos hga] at hres
  rcases eq_or_ne i a with rfl | hne
  · by_cases hex : ∃ j2, j2 < target.length ∧ s.ta j2 = true ∧
        guess.getD i '?' = target.getD j2 '?'
    · obtain ⟨j2, hj2, _, hm2⟩ := hex
      exact Or.inr ⟨j2, hj2, hm2⟩
    · rw [pass2Inner_res_miss target (guess.getD i '?') i s hex] at hres
      exact hP i hres
  · rw [pass2Inner_res_other target (guess.getD a '?') a s i hne] at hres
    exact hP i hres

lemma pass2_count (target guess : Word) (st0 : FGState)
    (h0 : ∀ L, taggedCount guess st0.res L ≤ consumedCount target st0.ta L) :
    ∀ L, taggedCount guess (pass2 target guess st0).res L
      ≤ consumedCount target (pass2 target guess st0).ta L := by
  refine foldl_inv (pass2Step target guess)
    (fun s => ∀ L, taggedCount guess s.res L ≤ consumedCount target s.ta L)
    (List.range guess.length) st0 ?_ h0
  intro s a _ hP L
  rw [pass2Step]
  by_cases hga : s.ga a = true
  swap
  · rw [if_neg hga]; exact hP L
  rw [if_pos hga]
  by_cases hex : ∃ j2, j2 < target.length ∧ s.ta j2 = true ∧
      guess.getD a '?' = target.getD j2 '?'
  · have hsubc : (Finset.range target.length).filter
          (fun j => target.getD j '?' = L ∧ s.ta j = false)
        ⊆ (Finset.range target.length).filter
          (fun j => target.getD j '?' = L ∧
            (pass2Inner target (guess.getD a '?') a s).ta j = false) := by
      intro j hj
      rcases Finset.mem_filter.mp hj with ⟨hjr, hjL, hjta⟩
      exact Finset.mem_filter.mpr
        ⟨hjr, hjL, pass2Inner_ta_false target (guess.getD a '?') a s j hjta⟩
    by_cases hL : guess.getD a '?' = L
    · have htag : taggedCount guess (pass2Inner target (guess.getD a '?') a s).res L
          ≤ taggedCount guess s.res L + 1 := by
        rw [taggedCount, taggedCount]
        have hsub : (Finset.range guess.length).filter
              (fun i => guess.getD i '?' = L ∧
                (pass2Inner target (guess.getD a '?') a s).res i ≠ Response.ABSENT)
            ⊆ insert a ((Finset.range guess.length).filter
              (fun i => guess.getD i '?' = L ∧ s.res i ≠ Response.ABSENT)) := by
          intro i hi
          rcases Finset.mem_filter.mp hi with ⟨hir, hiL, hires⟩
          rcases eq_or_ne i a with rfl | hne
          · exact Finset.mem_insert_self _ _
          · refine Finset.mem_insert_of_mem (Finset.mem_filter.mpr ⟨hir, hiL, ?_⟩)
            rw [← pass2Inner_res_other target (guess.getD a '?') a s i hne]
            exact hires
        exact le_trans (Finset.card_le_card hsub) (Finset.card_insert_le _ _)
      have hcons : consumedCount target s.ta L + 1
          ≤ consumedCount target (pass2Inner target (guess.getD a '?') a s).ta L := by
        obtain ⟨j0, hj0, hta0, hm0⟩ := hex
        have hmem2 : j0 ∈ (Finset.range target.length).filter
            (fun j => target.getD j '?' = L ∧
              (pass2Inner target (guess.getD a '?') a s).ta j = false) := by
          refine Finset.mem_filter.mpr ⟨Finset.mem_range.mpr hj0, ?_, ?_⟩
          · rw [← hm0]; exact hL
          · rcases Bool.eq_false_or_eq_true
                ((pass2Inner target (guess.getD a '?') a s).ta j0) with ht | hf
            · have h2 := (pass2Inner_ta target (guess.getD a '?') a s j0).mp ht
              exact absurd ⟨hj0, hm0⟩ h2.2
            · exact hf
        have hnmem : j0 ∉ (Finset.range target.length).filter
            (fun j => target.getD j '?' = L ∧ s.ta j = false) := by
          intro hmem3
          rcases Finset.mem_filter.mp hmem3 with ⟨-, -, hta3⟩
          rw [hta0] at hta3
          exact absurd hta3 (by simp)
        have hlt := Finset.card_lt_card
          ((Finset.ssubset_iff_of_subset hsubc).mpr ⟨j0, hmem2, hnmem⟩)
        rw [consumedCount, consumedCount]
        omega
      calc taggedCount guess (pass2Inner target (guess.getD a '?') a s).res L
          ≤ taggedCount guess s.res L + 1 := htag
        _ ≤ consumedCount target s.ta L + 1 := Nat.add_le_add_right (hP L) 1
        _ ≤ consumedCount target (pass2Inner target (guess.getD a '?') a s).ta L := hcons
    · have htag : taggedCount guess (pass2Inner target (guess.getD a '?') a s).res L
          = taggedCount guess s.res L := by
        rw [taggedCount, taggedCount]
        congr 1
        apply Finset.ext
        intro i
        simp only [Finset.mem_filter, Finset.mem_range]
        constructor
        · rintro ⟨hir, hiL, hires⟩
          rcases eq_or_ne i a with rfl | hne
          · exact absurd hiL hL
          · rw [← pass2Inner_res_other target (guess.getD a '?') a s i hne]
            exact ⟨hir, hiL, hires⟩
        · rintro ⟨hir, hiL, hires⟩
          rcases eq_or_ne i a with rfl | hne
          · exact absurd hiL hL
          · rw [pass2Inner_res_other target (guess.getD a '?') a s i hne]
            exact ⟨hir, hiL, hires⟩
      rw [htag]
      exact le_trans (hP L) (Finset.card_le_card hsubc)
  · have htag : taggedCount guess (pass2Inner target (guess.getD a '?') a s).res L
        = taggedCount guess s.res L := by
      rw [taggedCount, taggedCount]
      congr 1
      apply Finset.ext
      intro i
      simp only [Finset.mem_filter, Finset.mem_range]
      by_cases heq : i = a
      · rw [heq, pass2Inner_res_miss target (guess.getD a '?') a s hex]
      · rw [pass2Inner_res_other target (guess.getD a '?') a s i heq]
    have hcons : consumedCount target (pass2Inner target (guess.getD a '?') a s).ta L
        = consumedCount target s.ta L := by
      rw [consumedCount, consumedCount]
      congr 1
      apply Finset.ext
      intro j
      simp only [Finset.mem_filter, Finset.mem_range]
      constructor
      · rintro ⟨hjr, hjL, hjta⟩
        refine ⟨hjr, hjL, ?_⟩
        rcases Bool.eq_false_or_eq_true (s.ta j) with ht | hf
        · by_cases hjm : j < target.length ∧ guess.getD a '?' = target.getD j '?'
          · exact absurd ⟨j, hjm.1, ht, hjm.2⟩ hex
          · have := (pass2Inner_ta target (guess.getD a '?') a s j).mpr ⟨ht, hjm⟩
            rw [this] at hjta
            exact absurd hjta (by simp)
        · exact hf
      · rintro ⟨hjr, hjL, hjta⟩
        exact ⟨hjr, hjL, pass2Inner_ta_false target (guess.getD a '?') a s j hjta⟩
    rw [htag, hcons]
    exact hP L


lemma from_guess_tags_getD (target guess : Word) (i : ℕ) (h : i < guess.length) :
    (Response.from_guess target guess).tags.getD i 0
      = (pass2 target guess (pass1 target guess)).res i := by
  have hlen : i < ((List.range guess.length).map
      (pass2 target guess (pass1 target guess)).res).length := by simpa using h
  rw [Response.from_guess]
  rw [List.getD_eq_getElem _ _ hlen]
  simp

lemma res_correct_iff (target guess : Word) (i : ℕ) :
    (pass2 target guess (pass1 target guess)).res i = Response.CORRECT
      ↔ (i < guess.length ∧ guess.getD i '?' = target.getD i '?') := by
  constructor
  · intro h
    rcases pass2_shape target guess (pass1 target guess) i with heq | ⟨hp, -⟩
    · rw [heq, pass1_res] at h
      by_cases hc : i < guess.length ∧ guess.getD i '?' = target.getD i '?'
      · exact hc
      · rw [if_neg hc] at h
        exact absurd h (by decide)
    · rw [hp] at h
      exact absurd h (by decide)
  · rintro ⟨hi, hm⟩
    have hga : (pass1 target guess).ga i ≠ true :=
      fun hga => (pass1_ga target guess i).mp hga ⟨hi, hm⟩
    rcases pass2_shape target guess (pass1 target guess) i with heq | ⟨-, hgat⟩
    · rw [heq, pass1_res, if_pos ⟨hi, hm⟩]
    · exact absurd hgat hga

lemma res_values (target guess : Word) (i : ℕ) :
    (pass2 target guess (pass1 target guess)).res i = Response.ABSENT ∨
    (pass2 target guess (pass1 target guess)).res i = Response.PRESENT ∨
    (pass2 target guess (pass1 target guess)).res i = Response.CORRECT := by
  rcases pass2_shape target guess (pass1 target guess) i with heq | ⟨hp, -⟩
  · rw [heq, pass1_res]
    by_cases hc : i < guess.length ∧ guess.getD i '?' = target.getD i '?'
    · rw [if_pos hc]
      exact Or.inr (Or.inr rfl)
    · rw [if_neg hc]
      exact Or.inl rfl
  · exact Or.inr (Or.inl hp)

lemma count_eq_card_filter (t : Word) (L : Char) :
    t.count L = ((Finset.range t.length).filter (fun j => t.getD j '?' = L)).card := by
  induction t with
  | nil => simp
  | cons c t2 ih =>
    rw [List.count_cons, Finset.card_filter]
    rw [List.length_cons, Finset.sum_range_succ']
    simp only [List.getD_cons_succ, List.getD_cons_zero]
    rw [← Finset.card_filter, ← ih]
    congr 1
    by_cases hc : c = L
    · rw [if_pos (by simpa using hc), if_pos hc]
    · rw [if_neg (by simpa using hc), if_neg hc]

/-- Claim C2: `Response.from_guess` tags CORRECT every position where the
guess letter equals the target letter, and for every letter value `L` the
number of positions holding `L` tagged CORRECT or PRESENT never exceeds the
number of occurrences of `L` in the target (duplicate-letter invariant).
This holds even though pass 2 over-consumes (claim C1): over-consumption
only loses PRESENT tags, never creates excess ones. -/
theorem C2_correct_and_letter_bound (target guess : Word)
    (hlen : target.length = guess.length) :
    (∀ i, i < guess.length → guess.getD i '?' = target.getD i '?' →
        (Response.from_guess target guess).tags.getD i 0 = Response.CORRECT) ∧
    (∀ L : Char,
        ((Finset.range guess.length).filter
            (fun i => guess.getD i '?' = L ∧
              ((Response.from_guess target guess).tags.getD i 0 = Response.CORRECT ∨
               (Response.from_guess target guess).tags.getD i 0 = Response.PRESENT))).card
          ≤ target.count L) := by
  constructor
  · intro i hi hm
    rw [from_guess_tags_getD target guess i hi]
    exact (res_correct_iff target guess i).mpr ⟨hi, hm⟩
  · intro L
    have hfe : (Finset.range guess.length).filter
          (fun i => guess.getD i '?' = L ∧
            ((Response.from_guess target guess).tags.getD i 0 = Response.CORRECT ∨
             (Response.from_guess target guess).tags.getD i 0 = Response.PRESENT))
        = (Finset.range guess.length).filter
          (fun i => guess.getD i '?' = L ∧
            (pass2 target guess (pass1 target guess)).res i ≠ Response.ABSENT) := by
      apply Finset.ext
      intro i
      simp only [Finset.mem_filter, Finset.mem_range]
      constructor
      · rintro ⟨hir, hiL, htag⟩
        rw [from_guess_tags_getD target guess i hir] at htag
        refine ⟨hir, hiL, ?_⟩
        rcases htag with h2 | h1
        · rw [h2]; decide
        · rw [h1]; decide
      · rintro ⟨hir, hiL, hne⟩
        refine ⟨hir, hiL, ?_⟩
        rw [from_guess_tags_getD target guess i hir]
        rcases res_values target guess i with h0 | h1 | h2
        · exact absurd h0 hne
        · exact Or.inr h1
        · exact Or.inl h2
    rw [hfe]
    have h0 : ∀ L2, taggedCount guess (pass1 target guess).res L2
        ≤ consumedCount target (pass1 target guess).ta L2 := by
      intro L2
      apply le_of_eq
      simp only [taggedCount, consumedCount]
      rw [hlen]
      congr 1
      apply Finset.ext
      intro j
      simp only [Finset.mem_filter, Finset.mem_range]
      constructor
      · rintro ⟨hjr, hjL, hres⟩
        rw [pass1_res] at hres
        by_cases hc : j < guess.length ∧ guess.getD j '?' = target.getD j '?'
        · refine ⟨hjr, by rw [← hc.2]; exact hjL, ?_⟩
          rcases Bool.eq_false_or_eq_true ((pass1 target guess).ta j) with ht | hf
          · exact absurd hc ((pass1_ta target guess j).mp ht)
          · exact hf
        · rw [if_neg hc] at hres
          exact absurd rfl hres
      · rintro ⟨hjr, hjL, hta⟩
        have hc : j < guess.length ∧ guess.getD j '?' = target.getD j '?' := by
          by_contra hc
          have h2 := (pass1_ta target guess j).mpr hc
          rw [h2] at hta
          exact absurd hta (by simp)
        refine ⟨hjr, by rw [hc.2]; exact hjL, ?_⟩
        rw [pass1_res, if_pos hc]
        decide
    have hstep := pass2_count target guess (pass1 target guess) h0 L
    refine le_trans hstep ?_
    rw [count_eq_card_filter]
    apply Finset.card_le_card
    intro j hj
    rcases Finset.mem_filter.mp hj with ⟨hjr, hjL, -⟩
    exact Finset.mem_filter.mpr ⟨hjr, hjL⟩

/-- Witness for `C2_correct_and_letter_bound` on target "AB", guess "AA". -/
theorem C2_correct_and_letter_bound_witness :
    (['A','B'] : Word).length = (['A','A'] : Word).length ∧
    ((∀ i, i < (['A','A'] : Word).length →
        (['A','A'] : Word).getD i '?' = (['A','B'] : Word).getD i '?' →
        (Response.from_guess ['A','B'] ['A','A']).tags.getD i 0 = Response.CORRECT) ∧
    (∀ L : Char,
        ((Finset.range (['A','A'] : Word).length).filter
            (fun i => (['A','A'] : Word).getD i '?' = L ∧
              ((Response.from_guess ['A','B'] ['A','A']).tags.getD i 0 = Response.CORRECT ∨
               (Response.from_guess ['A','B'] ['A','A']).tags.getD i 0 = Response.PRESENT))).card
          ≤ (['A','B'] : Word).count L)) :=
  ⟨rfl, C2_correct_and_letter_bound ['A','B'] ['A','A'] rfl⟩


lemma playerScore_zero (S : List Word) (hr : Option Response) (depth : ℕ)
    (md : Option ℕ) (g : Option Word) (c : PlayerScoreCache) :
    playerScore 0 S hr depth md g c = none := rfl

lemma playerScore_allcorrect (fuel : ℕ) (S : List Word) (hr : Option Response)
    (depth : ℕ) (md : Option ℕ) (g : Option Word) (c : PlayerScoreCache)
    (h1 : ((hr.map Response.all_correct).getD false) = true) :
    playerScore (fuel + 1) S hr depth md g c = some (⟨0, some [], [1]⟩, c) := by
  simp only [playerScore]
  rw [if_pos h1]

lemma playerScore_depthbound (fuel : ℕ) (S : List Word) (hr : Option Response)
    (depth : ℕ) (md : Option ℕ) (g : Option Word) (c : PlayerScoreCache)
    (h1 : ¬(((hr.map Response.all_correct).getD false) = true))
    (h2 : some depth = md) :
    playerScore (fuel + 1) S hr depth md g c = some (⟨BIGNUM, some [], []⟩, c) := by
  simp only [playerScore]
  rw [if_neg h1, if_pos h2]

lemma playerScore_cachehit (fuel : ℕ) (S : List Word) (hr : Option Response)
    (depth : ℕ) (md : Option ℕ) (g : Option Word) (c : PlayerScoreCache)
    (ev : Evaluation)
    (h1 : ¬(((hr.map Response.all_correct).getD false) = true))
    (h2 : ¬(some depth = md))
    (hlook : c.lookup S.toFinset = some ev) :
    playerScore (fuel + 1) S hr depth md g c = some (ev, c) := by
  simp only [playerScore]
  rw [if_neg h1, if_neg h2, hlook]

lemma playerScore_run_none (fuel : ℕ) (S : List Word) (hr : Option Response)
    (depth : ℕ) (md : Option ℕ) (g : Option Word) (c : PlayerScoreCache)
    (h1 : ¬(((hr.map Response.all_correct).getD false) = true))
    (h2 : ¬(some depth = md))
    (hlook : c.lookup S.toFinset = none)
    (hrun : runGuesses (getEv fuel S (depth + 1) md) (guessListOf g S) c = none) :
    playerScore (fuel + 1) S hr depth md g c = none := by
  simp only [playerScore]
  rw [if_neg h1, if_neg h2, hlook]
  unfold getEv at hrun
  rw [hrun]

lemma playerScore_min_none (fuel : ℕ) (S : List Word) (hr : Option Response)
    (depth : ℕ) (md : Option ℕ) (g : Option Word) (c : PlayerScoreCache)
    (rs : List (Evaluation × Word)) (c1 : PlayerScoreCache)
    (h1 : ¬(((hr.map Response.all_correct).getD false) = true))
    (h2 : ¬(some depth = md))
    (hlook : c.lookup S.toFinset = none)
    (hrun : runGuesses (getEv fuel S (depth + 1) md) (guessListOf g S) c
      = some (rs, c1))
    (hmin : selectMin rs = none) :
    playerScore (fuel + 1) S hr depth md g c = none := by
  simp only [playerScore]
  rw [if_neg h1, if_neg h2, hlook]
  unfold getEv at hrun
  rw [hrun]
  dsimp only
  rw [hmin]

lemma playerScore_compute (fuel : ℕ) (S : List Word) (hr : Option Response)
    (depth : ℕ) (md : Option ℕ) (g : Option Word) (c : PlayerScoreCache)
    (rs : List (Evaluation × Word)) (c1 : PlayerScoreCache) (ev : Evaluation)
    (bw : Word)
    (h1 : ¬(((hr.map Response.all_correct).getD false) = true))
    (h2 : ¬(some depth = md))
    (hlook : c.lookup S.toFinset = none)
    (hrun : runGuesses (getEv fuel S (depth + 1) md) (guessListOf g S) c
      = some (rs, c1))
    (hmin : selectMin rs = some (ev, bw)) :
    playerScore (fuel + 1) S hr depth md g c =
      some (⟨ev.score + 1, some bw, 0 :: ev.histogram⟩,
        if g.isNone then
          c1.add S.toFinset ⟨ev.score + 1, some bw, 0 :: ev.histogram⟩
        else c1) := by
  simp only [playerScore]
  rw [if_neg h1, if_neg h2, hlook]
  unfold getEv at hrun
  rw [hrun]
  dsimp only
  rw [hmin]


lemma load_fold_aux (files : List SnapshotFile) :
    ∀ acc : List CacheLayer,
      files.foldl
        (fun ms f =>
          match f with
          | some m => ms ++ [m]
          | none => ms) acc
        = acc ++ files.filterMap id := by
  induction files with
  | nil => intro acc; simp
  | cons f fs ih =>
    intro acc
    rw [List.foldl_cons]
    cases f with
    | none =>
      rw [ih]
      simp [List.filterMap_cons]
    | some m =>
      rw [ih]
      simp [List.filterMap_cons]

lemma load_layers (files : List SnapshotFile) :
    (PlayerScoreCache.load files).layers = files.filterMap id := by
  simp only [PlayerScoreCache.load]
  rw [load_fold_aux files []]
  simp

lemma load_localMap (files : List SnapshotFile) :
    (PlayerScoreCache.load files).localMap = fun _ => none := rfl

lemma firstHit_iff (ms : List CacheLayer) (k : Finset Word) (v : Evaluation) :
    firstHit ms k = some v ↔
      ∃ i : ℕ, ∃ hi : i < ms.length, (ms.get ⟨i, hi⟩) k = some v ∧
        ∀ j, ∀ hj : j < ms.length, j < i → (ms.get ⟨j, hj⟩) k = none := by
  induction ms with
  | nil =>
    simp only [firstHit]
    constructor
    · intro h; exact absurd h (by simp)
    · rintro ⟨i, hi, -⟩; exact absurd hi (by simp)
  | cons m ms ih =>
    rw [firstHit]
    cases hm : m k with
    | some w =>
      constructor
      · intro h
        refine ⟨0, by simp, ?_, ?_⟩
        · show m k = some v
          rw [hm]; exact h
        · intro j hj hj0; omega
      · rintro ⟨i, hi, hv, hprev⟩
        cases i with
        | zero =>
          have : m k = some v := hv
          rw [hm] at this
          exact this
        | succ i =>
          have h0 : m k = none := hprev 0 (by simp) (by omega)
          rw [hm] at h0
          exact absurd h0 (by simp)
    | none =>
      rw [ih]
      constructor
      · rintro ⟨i, hi, hv, hprev⟩
        refine ⟨i + 1, by simpa using Nat.succ_lt_succ hi, hv, ?_⟩
        intro j hj hji
        cases j with
        | zero => exact hm
        | succ j => exact hprev j (by simpa using Nat.lt_of_succ_lt_succ hj) (by omega)
      · rintro ⟨i, hi, hv, hprev⟩
        cases i with
        | zero =>
          have : m k = some v := hv
          rw [hm] at this
          exact absurd this (by simp)
        | succ i =>
          refine ⟨i, Nat.lt_of_succ_lt_succ hi, hv, ?_⟩
          intro j hj hji
          exact hprev (j + 1) (by simpa using Nat.succ_lt_succ hj) (by omega)

/-- Claim C8: `ChainMap` lookup consults the writable local layer first and
then each loaded layer in snapshot order, returning the value from the
first layer containing the key; `add` modifies only the local layer, and
`load` installs the given snapshots, in their given order, as the read-only
layers (lookups are pure functions and modify nothing). -/
theorem C8_layered_lookup :
    (∀ (c : PlayerScoreCache) (k : Finset Word) (v : Evaluation),
        c.localMap k = some v → c.lookup k = some v) ∧
    (∀ (c : PlayerScoreCache) (k : Finset Word),
        c.localMap k = none → c.lookup k = firstHit c.layers k) ∧
    (∀ (ms : List CacheLayer) (k : Finset Word) (v : Evaluation),
        firstHit ms k = some v ↔
          ∃ i : ℕ, ∃ hi : i < ms.length, (ms.get ⟨i, hi⟩) k = some v ∧
            ∀ j, ∀ hj : j < ms.length, j < i → (ms.get ⟨j, hj⟩) k = none) ∧
    (∀ (c : PlayerScoreCache) (k : Finset Word) (ev : Evaluation),
        (c.add k ev).layers = c.layers) ∧
    (∀ files : List SnapshotFile,
        (PlayerScoreCache.load files).layers = files.filterMap id ∧
        (PlayerScoreCache.load files).localMap = fun _ => none) := by
  refine ⟨?_, ?_, firstHit_iff, ?_, fun files => ⟨load_layers files, rfl⟩⟩
  · intro c k v h
    rw [PlayerScoreCache.lookup, firstHit, h]
  · intro c k h
    rw [PlayerScoreCache.lookup, firstHit, h]
  · intro c k ev
    rw [PlayerScoreCache.add]
    by_cases hbig : BIGGISH < ev.score
    · rw [if_pos hbig]
    · rw [if_neg hbig]

/-- Witness for `C8_layered_lookup`: a concrete one-entry local layer is
found by lookup, discharging the hypothesis of the first conjunct. -/
theorem C8_layered_lookup_witness :
    (PlayerScoreCache.mk
        (Function.update (fun _ => none) (∅ : Finset Word)
          (some ⟨5, none, [1]⟩)) []).localMap ∅ = some ⟨5, none, [1]⟩ ∧
    (PlayerScoreCache.mk
        (Function.update (fun _ => none) (∅ : Finset Word)
          (some ⟨5, none, [1]⟩)) []).lookup ∅ = some ⟨5, none, [1]⟩ :=
  ⟨by rw [show (PlayerScoreCache.mk
        (Function.update (fun _ => none) (∅ : Finset Word)
          (some ⟨5, none, [1]⟩)) []).localMap
      = Function.update (fun _ => none) (∅ : Finset Word)
          (some ⟨5, none, [1]⟩) from rfl, Function.update_same],
   C8_layered_lookup.1 _ ∅ ⟨5, none, [1]⟩
     (by rw [show (PlayerScoreCache.mk
        (Function.update (fun _ => none) (∅ : Finset Word)
          (some ⟨5, none, [1]⟩)) []).localMap
      = Function.update (fun _ => none) (∅ : Finset Word)
          (some ⟨5, none, [1]⟩) from rfl, Function.update_same])⟩

lemma firstHit_append_empty (ms1 ms2 : List CacheLayer) (k : Finset Word) :
    firstHit (ms1 ++ (fun _ => none) :: ms2) k = firstHit (ms1 ++ ms2) k := by
  induction ms1 with
  | nil => rfl
  | cons m ms1 ih =>
    rw [List.cons_append, List.cons_append, firstHit, firstHit]
    cases hm : m k with
    | some w => rfl
    | none => exact ih

/-- Claim C9: a missing snapshot file is skipped with a warning:
`load` never raises (the `FileNotFoundError` handler is part of the
embedded definition), the cache it builds is exactly the one built from
the remaining files in their given order, and its lookups are the same as
if the missing file had held an empty layer. -/
theorem C9_missing_snapshot_recoverable (pre post : List SnapshotFile) :
    PlayerScoreCache.load (pre ++ (none : SnapshotFile) :: post)
      = PlayerScoreCache.load (pre ++ post) ∧
    (PlayerScoreCache.load (pre ++ (none : SnapshotFile) :: post)).layers
      = pre.filterMap id ++ post.filterMap id ∧
    ∀ k, (PlayerScoreCache.load (pre ++ (none : SnapshotFile) :: post)).lookup k
      = (PlayerScoreCache.load
          (pre ++ (some (fun _ => none) : SnapshotFile) :: post)).lookup k := by
  have hlay : (PlayerScoreCache.load (pre ++ (none : SnapshotFile) :: post)).layers
      = pre.filterMap id ++ post.filterMap id := by
    rw [load_layers]
    simp [List.filterMap_append, List.filterMap_cons]
  refine ⟨?_, hlay, ?_⟩
  · have h2 : (PlayerScoreCache.load (pre ++ post)).layers
        = pre.filterMap id ++ post.filterMap id := by
      rw [load_layers]
      simp [List.filterMap_append]
    cases hload : PlayerScoreCache.load (pre ++ (none : SnapshotFile) :: post)
    cases hload2 : PlayerScoreCache.load (pre ++ post)
    rw [hload] at hlay
    rw [hload2] at h2
    have hl1 : (PlayerScoreCache.load (pre ++ (none : SnapshotFile) :: post)).localMap
        = fun _ => none := rfl
    have hl2 : (PlayerScoreCache.load (pre ++ post)).localMap = fun _ => none := rfl
    rw [hload] at hl1
    rw [hload2] at hl2
    simp only at hlay h2 hl1 hl2
    rw [PlayerScoreCache.mk.injEq]
    exact ⟨hl1.trans hl2.symm, hlay.trans h2.symm⟩
  · intro k
    have hlay2 : (PlayerScoreCache.load
        (pre ++ (some (fun _ => none) : SnapshotFile) :: post)).layers
        = pre.filterMap id ++ (fun _ => none) :: post.filterMap id := by
      rw [load_layers]
      simp [List.filterMap_append, List.filterMap_cons]
    rw [PlayerScoreCache.lookup, PlayerScoreCache.lookup, hlay, hlay2,
      load_localMap, load_localMap]
    have := firstHit_append_empty
      ((fun _ => none) :: pre.filterMap id) (post.filterMap id) k
    simpa using this.symm


lemma add_localInv (c : PlayerScoreCache) (k : Finset Word) (ev : Evaluation)
    (h : localInv c) : localInv (c.add k ev) := by
  rw [PlayerScoreCache.add]
  by_cases hbig : BIGGISH < ev.score
  · rw [if_pos hbig]; exact h
  · rw [if_neg hbig]
    intro k2 e2 h2
    have h3 : Function.update c.localMap k (some ev) k2 = some e2 := h2
    rcases eq_or_ne k2 k with rfl | hne
    · rw [Function.update_same] at h3
      cases h3
      exact not_lt.mp hbig
    · rw [Function.update_noteq hne] at h3
      exact h k2 e2 h3

lemma hostFold_none (child : ScoreChild) (wl : List Word)
    (ps : List (Response × List Word)) :
    ps.foldl (hostStep child wl) none = none := by
  induction ps with
  | nil => rfl
  | cons p ps ih => rw [List.foldl_cons]; exact ih

lemma hostFold_localInv (child : ScoreChild) (wl : List Word)
    (hchild : ∀ P r c x, localInv c → child P r c = some x → localInv x.2) :
    ∀ (ps : List (Response × List Word)) (ev : Evaluation) (c : PlayerScoreCache)
      (x : Evaluation × PlayerScoreCache),
      localInv c → ps.foldl (hostStep child wl) (some (ev, c)) = some x →
        localInv x.2 := by
  intro ps
  induction ps with
  | nil =>
    intro ev c x hc h
    rw [List.foldl_nil] at h
    cases h
    exact hc
  | cons p ps ih =>
    intro ev c x hc h
    rw [List.foldl_cons] at h
    rw [hostStep] at h
    cases hcall : child p.2 p.1 c with
    | none =>
      rw [hcall] at h
      rw [hostFold_none] at h
      exact absurd h (by simp)
    | some pc =>
      rw [hcall] at h
      exact ih _ pc.2 x (hchild p.2 p.1 c pc hc (by rw [hcall])) h

lemma hostScore_localInv (child : ScoreChild) (wl : List Word) (g : Word)
    (c : PlayerScoreCache) (x : Evaluation × PlayerScoreCache)
    (hchild : ∀ P r c2 x2, localInv c2 → child P r c2 = some x2 → localInv x2.2)
    (hc : localInv c) (h : hostScore child wl g c = some x) : localInv x.2 :=
  hostFold_localInv child wl hchild (partitionsBy wl g) ⟨0, none, []⟩ c x hc h

lemma runGuesses_localInv
    (f : Word → PlayerScoreCache → Option (Evaluation × PlayerScoreCache))
    (hf : ∀ g c x, localInv c → f g c = some x → localInv x.2) :
    ∀ (gs : List Word) (c : PlayerScoreCache)
      (y : List (Evaluation × Word) × PlayerScoreCache),
      localInv c → runGuesses f gs c = some y → localInv y.2 := by
  intro gs
  induction gs with
  | nil =>
    intro c y hc h
    rw [runGuesses] at h
    cases h
    exact hc
  | cons g gs ih =>
    intro c y hc h
    cases hcall : f g c with
    | none =>
      have hres : runGuesses f (g :: gs) c = none := by rw [runGuesses, hcall]
      rw [hres] at h
      exact absurd h (by simp)
    | some ec =>
      obtain ⟨ev1, c1⟩ := ec
      cases hrest : runGuesses f gs c1 with
      | none =>
        have hres : runGuesses f (g :: gs) c = none := by
          rw [runGuesses, hcall]
          dsimp only
          rw [hrest]
        rw [hres] at h
        exact absurd h (by simp)
      | some rest =>
        obtain ⟨rl, rc⟩ := rest
        have hres : runGuesses f (g :: gs) c = some ((ev1, g) :: rl, rc) := by
          rw [runGuesses, hcall]
          dsimp only
          rw [hrest]
        rw [hres] at h
        cases h
        exact ih c1 (rl, rc) (hf g c (ev1, c1) hc hcall) hrest

lemma playerScore_localInv :
    ∀ (fuel : ℕ) (S : List Word) (hr : Option Response) (depth : ℕ)
      (md : Option ℕ) (g : Option Word) (c : PlayerScoreCache)
      (x : Evaluation × PlayerScoreCache),
      localInv c → playerScore fuel S hr depth md g c = some x → localInv x.2 := by
  intro fuel
  induction fuel with
  | zero =>
    intro S hr depth md g c x hc h
    rw [playerScore_zero] at h
    exact absurd h (by simp)
  | succ fuel ih =>
    intro S hr depth md g c x hc h
    by_cases h1 : ((hr.map Response.all_correct).getD false) = true
    · rw [playerScore_allcorrect fuel S hr depth md g c h1] at h
      cases h
      exact hc
    · by_cases h2 : some depth = md
      · rw [playerScore_depthbound fuel S hr depth md g c h1 h2] at h
        cases h
        exact hc
      · cases hlook : c.lookup S.toFinset with
        | some ev =>
          rw [playerScore_cachehit fuel S hr depth md g c ev h1 h2 hlook] at h
          cases h
          exact hc
        | none =>
          cases hrun : runGuesses (getEv fuel S (depth + 1) md)
              (guessListOf g S) c with
          | none =>
            rw [playerScore_run_none fuel S hr depth md g c h1 h2 hlook hrun] at h
            exact absurd h (by simp)
          | some rc =>
            obtain ⟨rs, c1⟩ := rc
            have hrcinv : localInv c1 := by
              refine runGuesses_localInv _ ?_ _ c (rs, c1) hc hrun
              intro gw cc xx hcc hgw
              unfold getEv at hgw
              refine hostScore_localInv _ S gw cc xx ?_ hcc hgw
              intro P r c2 x2 hi2 hps2
              exact ih P (some r) (depth + 1) md none c2 x2 hi2 hps2
            cases hmin : selectMin rs with
            | none =>
              rw [playerScore_min_none fuel S hr depth md g c rs c1
                h1 h2 hlook hrun hmin] at h
              exact absurd h (by simp)
            | some evw =>
              obtain ⟨ev, bw⟩ := evw
              rw [playerScore_compute fuel S hr depth md g c rs c1 ev bw
                h1 h2 hlook hrun hmin] at h
              cases h
              cases g with
              | none => simpa using add_localInv c1 S.toFinset _ hrcinv
              | some gw => simpa using hrcinv

/-- Claim C7: `Player.score_position` writes its computed Evaluation into
the score cache exactly when no forced guess was supplied (the `if not
guess` guard, conjunct 3) and the score does not exceed the cache's
`BIGGISH` threshold (`PlayerScoreCache.add`, conjuncts 1-2); hence the
writable local layer only ever holds entries scoring at most `BIGGISH`
(conjuncts 4-6: preserved by every `score_position` call, and true of a
freshly loaded or initial cache). -/
theorem C7_cache_write_policy :
    (∀ (c : PlayerScoreCache) (k : Finset Word) (ev : Evaluation),
        ev.score ≤ BIGGISH →
        (c.add k ev).localMap = Function.update c.localMap k (some ev) ∧
        (c.add k ev).layers = c.layers) ∧
    (∀ (c : PlayerScoreCache) (k : Finset Word) (ev : Evaluation),
        BIGGISH < ev.score → c.add k ev = c) ∧
    (∀ (fuel : ℕ) (S : List Word) (hr : Option Response) (depth : ℕ)
        (md : Option ℕ) (g : Option Word) (c : PlayerScoreCache)
        (rs : List (Evaluation × Word)) (c1 : PlayerScoreCache)
        (ev : Evaluation) (bw : Word),
        ¬(((hr.map Response.all_correct).getD false) = true) →
        ¬(some depth = md) →
        c.lookup S.toFinset = none →
        runGuesses (getEv fuel S (depth + 1) md) (guessListOf g S) c
          = some (rs, c1) →
        selectMin rs = some (ev, bw) →
        playerScore (fuel + 1) S hr depth md g c =
          some (⟨ev.score + 1, some bw, 0 :: ev.histogram⟩,
            if g.isNone then
              c1.add S.toFinset ⟨ev.score + 1, some bw, 0 :: ev.histogram⟩
            else c1)) ∧
    (∀ (fuel : ℕ) (S : List Word) (hr : Option Response) (depth : ℕ)
        (md : Option ℕ) (g : Option Word) (c : PlayerScoreCache)
        (x : Evaluation × PlayerScoreCache),
        localInv c → playerScore fuel S hr depth md g c = some x →
          localInv x.2) ∧
    (∀ files : List SnapshotFile, localInv (PlayerScoreCache.load files)) ∧
    localInv PlayerScoreCache.init := by
  refine ⟨?_, ?_, playerScore_compute, playerScore_localInv, ?_, ?_⟩
  · intro c k ev h
    rw [PlayerScoreCache.add, if_neg (not_lt.mpr h)]
    exact ⟨rfl, rfl⟩
  · intro c k ev h
    rw [PlayerScoreCache.add, if_pos h]
  · intro files k e h
    rw [load_localMap] at h
    exact absurd h (by simp)
  · intro k e h
    exact absurd h (by simp [PlayerScoreCache.init])

/-- Witness for `C7_cache_write_policy`: a small write, a skipped
over-threshold write, and a concrete forced-guess evaluation whose result
is returned without being cached (the cache comes back unchanged). -/
theorem C7_cache_write_policy_witness :
    ((⟨0, none, []⟩ : Evaluation).score ≤ BIGGISH ∧
      (PlayerScoreCache.init.add ∅ ⟨0, none, []⟩).localMap
        = Function.update PlayerScoreCache.init.localMap ∅ (some ⟨0, none, []⟩)) ∧
    (BIGGISH < (⟨2000, none, []⟩ : Evaluation).score ∧
      PlayerScoreCache.init.add ∅ ⟨2000, none, []⟩ = PlayerScoreCache.init) ∧
    playerScore 2 [] none 0 none (some ['A']) PlayerScoreCache.init
      = some (⟨1, some ['A'], [0]⟩, PlayerScoreCache.init) := by
  refine ⟨⟨by norm_num [BIGGISH], ?_⟩, ⟨by norm_num [BIGGISH], ?_⟩, ?_⟩
  · exact (C7_cache_write_policy.1 PlayerScoreCache.init ∅ ⟨0, none, []⟩
      (by norm_num [BIGGISH])).1
  · exact C7_cache_write_policy.2.1 PlayerScoreCache.init ∅ ⟨2000, none, []⟩
      (by norm_num [BIGGISH])
  · have h1 : ¬((((none : Option Response)).map Response.all_correct).getD false
        = true) := by simp
    have h2 : ¬(some (0 : ℕ) = (none : Option ℕ)) := by simp
    have h := C7_cache_write_policy.2.2.1 1 [] none 0 none (some ['A'])
      PlayerScoreCache.init [(⟨0, none, []⟩, ['A'])] PlayerScoreCache.init
      ⟨0, none, []⟩ ['A'] h1 h2 rfl rfl rfl
    simpa using h


lemma firstOccs_aux (l : List Response) :
    ∀ acc : List Response,
      (∀ x, x ∈ l.foldl (fun acc2 r => if r ∈ acc2 then acc2 else acc2 ++ [r]) acc
          ↔ x ∈ acc ∨ x ∈ l)
      ∧ (acc.Nodup →
          (l.foldl (fun acc2 r => if r ∈ acc2 then acc2 else acc2 ++ [r]) acc).Nodup) := by
  induction l with
  | nil =>
    intro acc
    constructor
    · intro x; simp
    · intro h; simpa using h
  | cons r l ih =>
    intro acc
    rw [List.foldl_cons]
    by_cases hr : r ∈ acc
    · rw [if_pos hr]
      constructor
      · intro x
        rw [(ih acc).1 x]
        constructor
        · rintro (h | h)
          · exact Or.inl h
          · exact Or.inr (List.mem_cons_of_mem r h)
        · rintro (h | h)
          · exact Or.inl h
          · rcases List.mem_cons.mp h with rfl | h2
            · exact Or.inl hr
            · exact Or.inr h2
      · exact fun h => (ih acc).2 h
    · rw [if_neg hr]
      constructor
      · intro x
        rw [(ih (acc ++ [r])).1 x]
        simp only [List.mem_append, List.mem_singleton, List.mem_cons]
        tauto
      · intro h
        refine (ih (acc ++ [r])).2 ?_
        simp [List.nodup_append, h, hr]

lemma mem_firstOccs (rs : List Response) (x : Response) :
    x ∈ firstOccs rs ↔ x ∈ rs := by
  rw [firstOccs, (firstOccs_aux rs []).1 x]
  simp

lemma nodup_firstOccs (rs : List Response) : (firstOccs rs).Nodup :=
  (firstOccs_aux rs []).2 List.nodup_nil

lemma partitionsBy_mem (S : List Word) (g : Word) (pr : Response × List Word)
    (h : pr ∈ partitionsBy S g) :
    pr.1 ∈ S.map (fun w => Response.from_guess w g) ∧
    pr.2 = S.filter (fun w => Response.from_guess w g = pr.1) := by
  rw [partitionsBy] at h
  rcases List.mem_map.mp h with ⟨r, hr, heq⟩
  subst heq
  exact ⟨(mem_firstOccs _ r).mp hr, rfl⟩

lemma partitionsBy_complete (S : List Word) (g : Word) (w : Word) (hw : w ∈ S) :
    (Response.from_guess w g,
      S.filter (fun v => Response.from_guess v g = Response.from_guess w g))
        ∈ partitionsBy S g ∧
    w ∈ S.filter (fun v => Response.from_guess v g = Response.from_guess w g) := by
  constructor
  · rw [partitionsBy]
    refine List.mem_map.mpr ⟨Response.from_guess w g, ?_, rfl⟩
    exact (mem_firstOccs _ _).mpr (List.mem_map_of_mem _ hw)
  · simp [List.mem_filter, hw]

lemma partitionsBy_fst_nodup (S : List Word) (g : Word) :
    ((partitionsBy S g).map Prod.fst).Nodup := by
  rw [partitionsBy, List.map_map]
  have : (Prod.fst ∘ fun r => (r, S.filter (fun w => Response.from_guess w g = r)))
      = fun r => r := rfl
  rw [this]
  simpa using nodup_firstOccs (S.map (fun w => Response.from_guess w g))

lemma host_fold_spec (child : ScoreChild) (wl : List Word) :
    ∀ (ps : List (Response × List Word)) (s : ℚ) (bw : Option Word)
      (h : List ℕ) (c : PlayerScoreCache),
      ps.foldl (hostStep child wl) (some (⟨s, bw, h⟩, c)) =
        (match threadParts child ps c with
         | none => none
         | some (pairs, c2) =>
           some (⟨s + (pairs.map (fun pe => (pe.1.2.length : ℚ) * pe.2.score)).sum
                    / (wl.length : ℚ),
                  bw,
                  pairs.foldl (fun a pe => hUpdate a pe.2.histogram) h⟩, c2)) := by
  intro ps
  induction ps with
  | nil =>
    intro s bw h c
    simp [threadParts]
  | cons p ps ih =>
    intro s bw h c
    rw [List.foldl_cons, hostStep]
    dsimp only
    cases hcall : child p.2 p.1 c with
    | none =>
      rw [hostFold_none, threadParts, hcall]
    | some pc =>
      obtain ⟨pev, c1⟩ := pc
      dsimp only
      rw [ih]
      rw [threadParts, hcall]
      dsimp only
      cases hrest : threadParts child ps c1 with
      | none => rfl
      | some rest =>
        obtain ⟨pairs, c2⟩ := rest
        dsimp only
        rw [List.map_cons, List.sum_cons, List.foldl_cons]
        dsimp only
        rw [add_assoc, div_add_div_same]

lemma hostScore_eq_hostSpec (child : ScoreChild) (wl : List Word) (g : Word)
    (c : PlayerScoreCache) :
    hostScore child wl g c = hostSpec child wl g c := by
  rw [hostScore, hostSpec, host_fold_spec child wl (partitionsBy wl g) 0 none [] c]
  cases ht : threadParts child (partitionsBy wl g) c with
  | none => rfl
  | some pc =>
    obtain ⟨pairs, c2⟩ := pc
    dsimp only
    rw [zero_add, List.foldl_map]

lemma threadParts_pure (child : ScoreChild)
    (hpure : ∀ P r c2 x, child P r c2 = some x → x.2 = c2) :
    ∀ (ps : List (Response × List Word)) (c : PlayerScoreCache)
      (x : List ((Response × List Word) × Evaluation) × PlayerScoreCache),
      threadParts child ps c = some x → x.2 = c := by
  intro ps
  induction ps with
  | nil =>
    intro c x h
    rw [threadParts] at h
    cases h
    rfl
  | cons p ps ih =>
    intro c x h
    cases hcall : child p.2 p.1 c with
    | none =>
      rw [threadParts, hcall] at h
      exact absurd h (by simp)
    | some pc =>
      obtain ⟨pev, c1⟩ := pc
      rw [threadParts, hcall] at h
      dsimp only at h
      cases hrest : threadParts child ps c1 with
      | none =>
        rw [hrest] at h
        exact absurd h (by simp)
      | some rest =>
        rw [hrest] at h
        cases h
        have h1 : c1 = c := hpure p.2 p.1 c (pev, c1) hcall
        have h2 : rest.2 = c1 := ih c1 rest hrest
        rw [h2, h1]

lemma hostScore_pure (child : ScoreChild) (wl : List Word) (g : Word)
    (c : PlayerScoreCache)
    (hpure : ∀ P r c2 x, child P r c2 = some x → x.2 = c2) :
    ∀ x, hostScore child wl g c = some x → x.2 = c := by
  intro x h
  rw [hostScore_eq_hostSpec, hostSpec] at h
  cases ht : threadParts child (partitionsBy wl g) c with
  | none =>
    rw [ht] at h
    exact absurd h (by simp)
  | some pc =>
    obtain ⟨pairs, c2⟩ := pc
    rw [ht] at h
    cases h
    exact threadParts_pure child hpure (partitionsBy wl g) c (pairs, c2) ht

/-- Claim C4, refutation of the original failure-set clause: the code's
`Evaluation` carries only a score, a best word and a histogram, and two host
positions whose candidate sets differ — hence, by the spec's terminal rule
`failures = candidates`, whose child failure-set unions differ (`{['A']}`
versus `{['C']}`) — produce identical `Evaluation`s, so no reading `fl` of
`Host.score_position`'s output can return the union of the child failure
sets in both runs.  (Children are scored at the depth bound, where the spec
says the failure set is the whole candidate partition.) -/
theorem C4_failures_not_representable :
    ((hostScore
        (fun part resp c2 => playerScore 1 part (some resp) 1 (some 1) none c2)
        [['A']] ['B'] PlayerScoreCache.init).map Prod.fst
      = (hostScore
          (fun part resp c2 => playerScore 1 part (some resp) 1 (some 1) none c2)
          [['C']] ['B'] PlayerScoreCache.init).map Prod.fst) ∧
    ([['A']] : List Word) ≠ [['C']] ∧
    ¬∃ fl : Evaluation → Finset Word,
      (∀ ev, (hostScore
          (fun part resp c2 => playerScore 1 part (some resp) 1 (some 1) none c2)
          [['A']] ['B'] PlayerScoreCache.init).map Prod.fst = some ev →
        fl ev = {(['A'] : Word)}) ∧
      (∀ ev, (hostScore
          (fun part resp c2 => playerScore 1 part (some resp) 1 (some 1) none c2)
          [['C']] ['B'] PlayerScoreCache.init).map Prod.fst = some ev →
        fl ev = {(['C'] : Word)}) := by
  refine ⟨rfl, by decide, ?_⟩
  rintro ⟨fl, h1, h2⟩
  obtain ⟨ev, hev⟩ : ∃ ev, (hostScore
      (fun part resp c2 => playerScore 1 part (some resp) 1 (some 1) none c2)
      [['C']] ['B'] PlayerScoreCache.init).map Prod.fst = some ev := ⟨_, rfl⟩
  have hA : (hostScore
      (fun part resp c2 => playerScore 1 part (some resp) 1 (some 1) none c2)
      [['A']] ['B'] PlayerScoreCache.init).map Prod.fst = some ev := hev
  have g1 := h1 ev hA
  have g2 := h2 ev hev
  rw [g1] at g2
  have hm : (['A'] : Word) ∈ ({(['C'] : Word)} : Finset Word) := by
    rw [← g2]
    exact Finset.mem_singleton_self _
  rw [Finset.mem_singleton] at hm
  exact absurd hm (by decide)

/-- Claim C4 (amended, the failure-set clause dropped as the code's
`Evaluation` forces): `Host.score_position` partitions the candidate set by
the response each word (as hidden target) gives to the guess, obtains one
child Evaluation per partition from the player, and aggregates them exactly
as the spec words it (`hostSpec`): score is the partition-size-weighted sum
of child scores divided by `|candidates|`, and the histogram is the
element-wise sum of the child histograms; the host itself neither reads nor
writes the cache — any cache change comes from the child calls alone (for a
cache-preserving child the cache is returned unchanged). -/
theorem C4_host_aggregation (child : ScoreChild) (S : List Word) (g : Word)
    (c : PlayerScoreCache) (_hS : S ≠ []) :
    hostScore child S g c = hostSpec child S g c ∧
    (∀ w ∈ S, (Response.from_guess w g,
        S.filter (fun v => Response.from_guess v g = Response.from_guess w g))
          ∈ partitionsBy S g ∧
        w ∈ S.filter (fun v => Response.from_guess v g = Response.from_guess w g)) ∧
    (∀ pr ∈ partitionsBy S g, ∀ w,
        w ∈ pr.2 ↔ (w ∈ S ∧ Response.from_guess w g = pr.1)) ∧
    ((partitionsBy S g).map Prod.fst).Nodup ∧
    ((∀ P r c2 x, child P r c2 = some x → x.2 = c2) →
      ∀ x, hostScore child S g c = some x → x.2 = c) := by
  refine ⟨hostScore_eq_hostSpec child S g c,
          fun w hw => partitionsBy_complete S g w hw, ?_,
          partitionsBy_fst_nodup S g,
          fun hpure => hostScore_pure child S g c hpure⟩
  intro pr hpr w
  rw [(partitionsBy_mem S g pr hpr).2]
  simp [List.mem_filter]

/-- Witness for `C4_host_aggregation` at a concrete candidate set, guess
and (cache-preserving) child scorer. -/
theorem C4_host_aggregation_witness :
    ([['A'], ['B']] : List Word) ≠ [] ∧
    hostScore (fun _ _ c2 => some (⟨0, none, []⟩, c2)) [['A'], ['B']] ['A']
        PlayerScoreCache.init
      = hostSpec (fun _ _ c2 => some (⟨0, none, []⟩, c2)) [['A'], ['B']] ['A']
        PlayerScoreCache.init :=
  ⟨by simp,
   (C4_host_aggregation (fun _ _ c2 => some (⟨0, none, []⟩, c2)) [['A'], ['B']]
     ['A'] PlayerScoreCache.init (by simp)).1⟩


lemma from_guess_tags_all_correct (target guess : Word) :
    (Response.from_guess target guess).all_correct = true ↔
      ∀ i, i < guess.length → guess.getD i '?' = target.getD i '?' := by
  rw [Response.all_correct, List.all_eq_true]
  constructor
  · intro h i hi
    have hmem : (pass2 target guess (pass1 target guess)).res i
        ∈ (Response.from_guess target guess).tags := by
      rw [Response.from_guess]
      exact List.mem_map.mpr ⟨i, List.mem_range.mpr hi, rfl⟩
    have h2 := h _ hmem
    have h3 : (pass2 target guess (pass1 target guess)).res i = Response.CORRECT := by
      simpa using h2
    exact ((res_correct_iff target guess i).mp h3).2
  · intro h x hx
    rw [Response.from_guess] at hx
    rcases List.mem_map.mp hx with ⟨i, hir, rfl⟩
    have hi := List.mem_range.mp hir
    have h3 : (pass2 target guess (pass1 target guess)).res i = Response.CORRECT :=
      (res_correct_iff target guess i).mpr ⟨hi, h i hi⟩
    rw [h3]
    rfl

lemma all_correct_iff_eq (target guess : Word)
    (hlen : target.length = guess.length) :
    (Response.from_guess target guess).all_correct = true ↔ target = guess := by
  rw [from_guess_tags_all_correct]
  constructor
  · intro h
    apply List.ext_get hlen
    intro i h1 h2
    have h3 := h i h2
    rw [List.getD_eq_getElem guess '?' h2, List.getD_eq_getElem target '?' h1] at h3
    rw [List.get_eq_getElem, List.get_eq_getElem]
    exact h3.symm
  · rintro rfl
    intro i hi
    rfl

lemma from_guess_self_all_correct (g : Word) :
    (Response.from_guess g g).all_correct = true :=
  (all_correct_iff_eq g g rfl).mpr rfl

lemma foldl_pick_mem :
    ∀ (ys : List (Evaluation × Word)) (y : Evaluation × Word),
      ys.foldl (fun best z => if z.1.score < best.1.score then z else best) y
        ∈ y :: ys := by
  intro ys
  induction ys with
  | nil => intro y; simp
  | cons z zs ih =>
    intro y
    rw [List.foldl_cons]
    by_cases hlt : z.1.score < y.1.score
    · rw [if_pos hlt]
      have h2 := ih z
      simp only [List.mem_cons] at h2 ⊢
      tauto
    · rw [if_neg hlt]
      have h2 := ih y
      simp only [List.mem_cons] at h2 ⊢
      tauto

lemma selectMin_mem (xs : List (Evaluation × Word)) (x : Evaluation × Word)
    (h : selectMin xs = some x) : x ∈ xs := by
  cases xs with
  | nil => exact absurd h (by simp [selectMin])
  | cons y ys =>
    rw [selectMin] at h
    cases h
    exact foldl_pick_mem ys y

lemma hUpdate_sum : ∀ (b a : List ℕ), (hUpdate a b).sum = a.sum + b.sum := by
  intro b
  induction b with
  | nil =>
    intro a
    cases a with
    | nil => rfl
    | cons x xs => simp [hUpdate]
  | cons bb bs ih =>
    intro a
    cases a with
    | nil =>
      rw [hUpdate, List.sum_cons, ih []]
      simp
    | cons aa as2 =>
      rw [hUpdate, List.sum_cons, ih as2]
      simp [List.sum_cons]
      omega

lemma length_filter_lt_of_mem (l : List Word) (p : Word → Bool) (a : Word)
    (ha : a ∈ l) (hpa : p a = false) : (l.filter p).length < l.length := by
  induction l with
  | nil => cases ha
  | cons x xs ih =>
    rw [List.filter_cons]
    rcases List.mem_cons.mp ha with rfl | hmem
    · rw [if_neg (by simp [hpa] : ¬(p a = true))]
      have hle := List.length_filter_le p xs
      simp only [List.length_cons]
      omega
    · by_cases hx : p x = true
      · rw [if_pos hx]
        simp only [List.length_cons]
        exact Nat.succ_lt_succ (ih hmem)
      · rw [if_neg hx]
        have hlt := ih hmem
        simp only [List.length_cons]
        omega

lemma sum_map_add {α : Type _} (l : List α) (f g2 : α → ℕ) :
    (l.map (fun x => f x + g2 x)).sum = (l.map f).sum + (l.map g2).sum := by
  induction l with
  | nil => simp
  | cons x xs ih =>
    simp only [List.map_cons, List.sum_cons, ih]
    omega

lemma sum_indicator (rs : List Response) (a : Response) (hnd : rs.Nodup)
    (ha : a ∈ rs) :
    (rs.map (fun r => if a = r then 1 else 0)).sum = 1 := by
  induction rs with
  | nil => cases ha
  | cons r rs ih =>
    rw [List.map_cons, List.sum_cons]
    rcases List.mem_cons.mp ha with rfl | hmem
    · rw [if_pos rfl]
      have hz : (rs.map (fun r2 => if a = r2 then 1 else 0)).sum = 0 := by
        apply List.sum_eq_zero
        intro x hx
        rcases List.mem_map.mp hx with ⟨r2, h2, rfl⟩
        refine if_neg (fun he => ?_)
        rw [← he] at h2
        exact absurd h2 (List.nodup_cons.mp hnd).1
      omega
    · have hne : a ≠ r := fun he => by
        rw [he] at hmem
        exact absurd hmem (List.nodup_cons.mp hnd).1
      rw [if_neg hne, ih (List.nodup_cons.mp hnd).2 hmem]

lemma sum_partition_lengths (rs : List Response) (hnd : rs.Nodup) (g : Word) :
    ∀ S : List Word, (∀ w ∈ S, Response.from_guess w g ∈ rs) →
      (rs.map (fun r =>
        (S.filter (fun w => Response.from_guess w g = r)).length)).sum
        = S.length := by
  intro S
  induction S with
  | nil =>
    intro _
    rw [List.length_nil]
    apply List.sum_eq_zero
    intro x hx
    rcases List.mem_map.mp hx with ⟨r, -, rfl⟩
    rfl
  | cons w S2 ih =>
    intro hcov
    have hstep : ∀ r : Response,
        ((w :: S2).filter (fun v => Response.from_guess v g = r)).length
          = (S2.filter (fun v => Response.from_guess v g = r)).length
            + (if Response.from_guess w g = r then 1 else 0) := by
      intro r
      rw [List.filter_cons]
      by_cases hw : Response.from_guess w g = r
      · have hd : decide (Response.from_guess w g = r) = true := by simpa using hw
        rw [hd, if_pos rfl, List.length_cons, if_pos hw]
      · have hd : decide (Response.from_guess w g = r) = false := by simpa using hw
        rw [hd, if_neg (by simp), if_neg hw]
        omega
    have hmap : (rs.map (fun r => ((w :: S2).filter
          (fun v => Response.from_guess v g = r)).length))
        = rs.map (fun r =>
            (S2.filter (fun v => Response.from_guess v g = r)).length
              + (if Response.from_guess w g = r then 1 else 0)) := by
      apply List.map_congr_left
      intro r _
      exact hstep r
    rw [hmap, sum_map_add, ih (fun v hv => hcov v (List.mem_cons_of_mem w hv)),
      sum_indicator rs (Response.from_guess w g) hnd (hcov w (List.mem_cons_self w S2)),
      List.length_cons]

lemma goodCache_init : goodCache PlayerScoreCache.init := by
  intro k ev h
  have h2 : PlayerScoreCache.init.lookup k = none := rfl
  rw [h2] at h
  cases h

lemma add_goodCache (c : PlayerScoreCache) (k : Finset Word) (ev : Evaluation)
    (hc : goodCache c) (hev : ev.histogram.sum = k.card) :
    goodCache (c.add k ev) := by
  rw [PlayerScoreCache.add]
  by_cases hbig : BIGGISH < ev.score
  · rw [if_pos hbig]
    exact hc
  · rw [if_neg hbig]
    intro k2 e2 h2
    rw [PlayerScoreCache.lookup, firstHit] at h2
    rcases eq_or_ne k2 k with rfl | hne
    · rw [show ({ c with localMap := Function.update c.localMap k2 (some ev)}
            : PlayerScoreCache).localMap = Function.update c.localMap k2 (some ev)
          from rfl, Function.update_same] at h2
      cases h2
      exact hev
    · rw [show ({ c with localMap := Function.update c.localMap k (some ev)}
            : PlayerScoreCache).localMap = Function.update c.localMap k (some ev)
          from rfl, Function.update_noteq hne] at h2
      have h3 : c.lookup k2 = some e2 := by
        rw [PlayerScoreCache.lookup, firstHit]
        exact h2
      exact hc k2 e2 h3

lemma host_fold_conserve (child : ScoreChild) (wl : List Word) :
    ∀ (ps : List (Response × List Word)),
      (∀ pr ∈ ps, ∀ c : PlayerScoreCache, goodCache c →
        ∃ pev c2, child pr.2 pr.1 c = some (pev, c2) ∧
          pev.histogram.sum = pr.2.length ∧ goodCache c2) →
      ∀ (s : ℚ) (bw : Option Word) (h : List ℕ) (c : PlayerScoreCache),
        goodCache c →
        ∃ ev c2,
          ps.foldl (hostStep child wl) (some (⟨s, bw, h⟩, c)) = some (ev, c2) ∧
          ev.histogram.sum = h.sum + (ps.map (fun pr => pr.2.length)).sum ∧
          goodCache c2 := by
  intro ps
  induction ps with
  | nil =>
    intro _ s bw h c hgc
    exact ⟨⟨s, bw, h⟩, c, rfl, by simp, hgc⟩
  | cons p ps ihp =>
    intro hch s bw h c hgc
    obtain ⟨pev, c1, hcall, hsum, hgc1⟩ := hch p (List.mem_cons_self p ps) c hgc
    rw [List.foldl_cons, hostStep]
    dsimp only
    rw [hcall]
    dsimp only
    obtain ⟨ev, c2, hfold, hsum2, hgc2⟩ :=
      ihp (fun pr hpr => hch pr (List.mem_cons_of_mem p hpr))
        (s + (p.2.length : ℚ) * pev.score / (wl.length : ℚ)) bw
        (hUpdate h pev.histogram) c1 hgc1
    refine ⟨ev, c2, hfold, ?_, hgc2⟩
    rw [hsum2, hUpdate_sum, hsum, List.map_cons, List.sum_cons]
    omega


lemma playerScore_conserve :
    ∀ (fuel : ℕ) (S : List Word) (hr : Option Response) (depth : ℕ)
      (c : PlayerScoreCache) (L : ℕ),
      S ≠ [] → S.Nodup → (∀ w ∈ S, w.length = L) → goodCache c →
      S.length < fuel →
      (∀ r, hr = some r → r.all_correct = true → S.length = 1) →
      ∃ ev c2, playerScore fuel S hr depth none none c = some (ev, c2) ∧
        ev.histogram.sum = S.length ∧ goodCache c2 := by
  intro fuel
  induction fuel with
  | zero =>
    intro S hr depth c L hne hnd hlen hgc hfuel hhr
    exact absurd hfuel (Nat.not_lt_zero _)
  | succ fuel ih =>
    intro S hr depth c L hne hnd hlen hgc hfuel hhr
    have hSpos : 0 < S.length := List.length_pos.mpr hne
    by_cases h1 : ((hr.map Response.all_correct).getD false) = true
    · have hS1 : S.length = 1 := by
        cases hr with
        | none => simp at h1
        | some r => exact hhr r rfl (by simpa using h1)
      refine ⟨⟨0, some [], [1]⟩, c,
        playerScore_allcorrect fuel S hr depth none none c h1, ?_, hgc⟩
      rw [hS1]
      rfl
    · have h2 : ¬(some depth = (none : Option ℕ)) := by simp
      cases hlook : c.lookup S.toFinset with
      | some ev =>
        refine ⟨ev, c,
          playerScore_cachehit fuel S hr depth none none c ev h1 h2 hlook, ?_, hgc⟩
        rw [hgc S.toFinset ev hlook, List.toFinset_card_of_nodup hnd]
      | none =>
        have hhost : ∀ g ∈ S, ∀ c2 : PlayerScoreCache, goodCache c2 →
            ∃ ev c3,
              hostScore
                (fun part resp c4 =>
                  playerScore fuel part (some resp) (depth + 1) none none c4)
                S g c2 = some (ev, c3) ∧
              ev.histogram.sum = S.length ∧ goodCache c3 := by
          intro g hg c2 hgc2
          have hchild : ∀ pr ∈ partitionsBy S g, ∀ c3 : PlayerScoreCache,
              goodCache c3 →
              ∃ pev c4,
                (fun part resp c5 =>
                  playerScore fuel part (some resp) (depth + 1) none none c5)
                  pr.2 pr.1 c3 = some (pev, c4) ∧
                pev.histogram.sum = pr.2.length ∧ goodCache c4 := by
            intro pr hpr c3 hgc3
            obtain ⟨hmem, hPfilter⟩ := partitionsBy_mem S g pr hpr
            rcases List.mem_map.mp hmem with ⟨w0, hw0, hw0r⟩
            have hw0P : w0 ∈ pr.2 := by
              rw [hPfilter]
              simp [List.mem_filter, hw0, hw0r]
            have hPsub : ∀ v ∈ pr.2, v ∈ S := by
              rw [hPfilter]
              intro v hv
              exact (List.mem_filter.mp hv).1
            have hPnd : pr.2.Nodup := by
              rw [hPfilter]
              exact hnd.filter _
            have hPlen : ∀ v ∈ pr.2, v.length = L := fun v hv => hlen v (hPsub v hv)
            have hPresp : ∀ v ∈ pr.2, Response.from_guess v g = pr.1 := by
              rw [hPfilter]
              intro v hv
              simpa using (List.mem_filter.mp hv).2
            by_cases hac : pr.1.all_correct = true
            · have hvg : ∀ v ∈ pr.2, v = g := by
                intro v hv
                have h5 : (Response.from_guess v g).all_correct = true := by
                  rw [hPresp v hv]
                  exact hac
                refine (all_correct_iff_eq v g ?_).mp h5
                rw [hPlen v hv, hlen g hg]
              have hP1 : pr.2.length = 1 := by
                have hsub : pr.2.toFinset ⊆ {g} := by
                  intro v hv
                  rw [List.mem_toFinset] at hv
                  rw [Finset.mem_singleton]
                  exact hvg v hv
                have hle : pr.2.toFinset.card ≤ 1 := by
                  have h6 := Finset.card_le_card hsub
                  simpa using h6
                have hpos : 0 < pr.2.toFinset.card := by
                  rw [Finset.card_pos]
                  exact ⟨w0, List.mem_toFinset.mpr hw0P⟩
                rw [List.toFinset_card_of_nodup hPnd] at hle hpos
                omega
              cases fuel with
              | zero => exact absurd hfuel (by omega)
              | succ f =>
                refine ⟨⟨0, some [], [1]⟩, c3,
                  playerScore_allcorrect f pr.2 (some pr.1) (depth + 1) none none c3
                    (by simpa using hac), ?_, hgc3⟩
                rw [hP1]
                rfl
            · have hgnP : ¬(Response.from_guess g g = pr.1) := by
                intro he
                apply hac
                rw [← he]
                exact from_guess_self_all_correct g
              have hPlt : pr.2.length < S.length := by
                rw [hPfilter]
                exact length_filter_lt_of_mem S _ g hg (by simpa using hgnP)
              have hPne : pr.2 ≠ [] := by
                intro he
                rw [he] at hw0P
                cases hw0P
              have hhr2 : ∀ r2, (some pr.1 : Option Response) = some r2 →
                  r2.all_correct = true → pr.2.length = 1 := by
                intro r2 he hac2
                cases he
                exact absurd hac2 hac
              exact ih pr.2 (some pr.1) (depth + 1) c3 L hPne hPnd hPlen hgc3
                (by omega) hhr2
          obtain ⟨ev, c3, hfold, hsum, hgc3⟩ :=
            host_fold_conserve
              (fun part resp c4 =>
                playerScore fuel part (some resp) (depth + 1) none none c4)
              S (partitionsBy S g) hchild 0 none [] c2 hgc2
          refine ⟨ev, c3, hfold, ?_, hgc3⟩
          rw [hsum]
          have hsumP : ((partitionsBy S g).map (fun pr => pr.2.length)).sum
              = S.length := by
            rw [partitionsBy, List.map_map]
            exact sum_partition_lengths
              (firstOccs (S.map (fun w => Response.from_guess w g)))
              (nodup_firstOccs _) g S
              (fun w hw => (mem_firstOccs _ _).mpr (List.mem_map_of_mem _ hw))
          rw [hsumP]
          simp
        have hrunlem : ∀ gs : List Word, (∀ g ∈ gs, g ∈ S) →
            ∀ c2 : PlayerScoreCache, goodCache c2 →
            ∃ rs c3,
              runGuesses (getEv fuel S (depth + 1) none) gs c2 = some (rs, c3) ∧
              rs.length = gs.length ∧
              (∀ x ∈ rs, x.1.histogram.sum = S.length) ∧ goodCache c3 := by
          intro gs
          induction gs with
          | nil =>
            intro _ c2 hgc2
            exact ⟨[], c2, rfl, rfl, by simp, hgc2⟩
          | cons g gs ihg =>
            intro hsub c2 hgc2
            obtain ⟨ev, c3, hhostg, hsumg, hgc3⟩ :=
              hhost g (hsub g (List.mem_cons_self g gs)) c2 hgc2
            obtain ⟨rs, c4, hrun, hlen2, hall, hgc4⟩ :=
              ihg (fun g2 h3 => hsub g2 (List.mem_cons_of_mem g h3)) c3 hgc3
            have hg2 : getEv fuel S (depth + 1) none g c2 = some (ev, c3) := hhostg
            refine ⟨(ev, g) :: rs, c4, ?_, by simp [hlen2], ?_, hgc4⟩
            · rw [runGuesses, hg2]
              dsimp only
              rw [hrun]
            · intro x hx
              rcases List.mem_cons.mp hx with rfl | h3
              · exact hsumg
              · exact hall x h3
        obtain ⟨rs, c1, hrun, hlen2, hall, hgc1⟩ := hrunlem S (fun g h => h) c hgc
        have hrsne : rs ≠ [] := by
          intro he
          rw [he] at hlen2
          exact hne (List.length_eq_zero.mp hlen2.symm)
        obtain ⟨x, hmin⟩ : ∃ x, selectMin rs = some x := by
          cases rs with
          | nil => exact absurd rfl hrsne
          | cons y ys => exact ⟨_, rfl⟩
        obtain ⟨ev, bw⟩ := x
        have hsum := hall (ev, bw) (selectMin_mem rs (ev, bw) hmin)
        have hps := playerScore_compute fuel S hr depth none none c rs c1 ev bw
          h1 h2 hlook hrun hmin
        refine ⟨⟨ev.score + 1, some bw, 0 :: ev.histogram⟩,
          c1.add S.toFinset ⟨ev.score + 1, some bw, 0 :: ev.histogram⟩,
          ?_, ?_, ?_⟩
        · simpa using hps
        · rw [List.sum_cons]
          simpa using hsum
        · refine add_goodCache c1 S.toFinset _ hgc1 ?_
          rw [List.toFinset_card_of_nodup hnd, List.sum_cons]
          simpa using hsum

/-- Claim C6: for a non-empty candidate pool of equal-length distinct words
evaluated from the root (fresh cache, no forced guess, so the guess
universe is the pool itself) with an unbounded depth limit, `Player.start`
returns an Evaluation whose histogram buckets sum to exactly the pool
size: every candidate word is accounted for in exactly one turn bucket. -/
theorem C6_histogram_conservation (S : List Word) (L fuel : ℕ)
    (hne : S ≠ []) (hnd : S.Nodup) (hlen : ∀ w ∈ S, w.length = L)
    (hfuel : S.length < fuel) :
    ∃ ev c2,
      playerStart fuel S none none PlayerScoreCache.init = some (ev, c2) ∧
      ev.histogram.sum = S.length := by
  obtain ⟨ev, c2, h, hs, -⟩ := playerScore_conserve fuel S none 0
    PlayerScoreCache.init L hne hnd hlen goodCache_init hfuel
    (fun r hr => by cases hr)
  exact ⟨ev, c2, h, hs⟩

/-- Witness for `C6_histogram_conservation` on the pool {"A", "B"}. -/
theorem C6_histogram_conservation_witness :
    ∃ ev c2,
      playerStart 3 [['A'], ['B']] none none PlayerScoreCache.init
        = some (ev, c2) ∧
      ev.histogram.sum = ([['A'], ['B']] : List Word).length :=
  C6_histogram_conservation [['A'], ['B']] 1 3 (by decide) (by decide)
    (by decide) (by decide)


lemma mem_enum_char (l : Word) (i : ℕ) (c : Char) :
    (i, c) ∈ l.enum ↔ ∃ _ : i < l.length, l.getD i '?' = c := by
  constructor
  · intro h
    rcases List.mem_iff_getElem.mp h with ⟨j, hj, he⟩
    have hj2 : j < l.length := by simpa using hj
    rw [List.getElem_enum] at he
    injection he with h1 h2
    subst h1
    refine ⟨hj2, ?_⟩
    rw [List.getD_eq_getElem l '?' hj2]
    exact h2
  · rintro ⟨h, he⟩
    apply List.mem_iff_getElem.mpr
    refine ⟨i, by simpa using h, ?_⟩
    rw [List.getElem_enum]
    refine Prod.ext rfl ?_
    rw [← List.getD_eq_getElem l '?' h]
    exact he

lemma mem_must (g : Word) (r : Response) (L : Char) :
    L ∈ must g r ↔
      ∃ i, i < g.length ∧ g.getD i '?' = L ∧
        r.tags.getD i 0 ≠ Response.ABSENT := by
  rw [must, List.mem_toFinset]
  constructor
  · intro h
    rcases List.mem_map.mp h with ⟨p, hp, hsnd⟩
    rcases List.mem_filter.mp hp with ⟨hpe, hpred⟩
    obtain ⟨i, c⟩ := p
    rcases (mem_enum_char g i c).mp hpe with ⟨hi, hgd⟩
    refine ⟨i, hi, ?_, by simpa using hpred⟩
    rw [hgd]
    exact hsnd
  · rintro ⟨i, hi, hgd, htag⟩
    refine List.mem_map.mpr ⟨(i, L), ?_, rfl⟩
    refine List.mem_filter.mpr ⟨(mem_enum_char g i L).mpr ⟨hi, hgd⟩, ?_⟩
    simpa using htag

lemma mem_mustnot (g : Word) (r : Response) (L : Char) :
    L ∈ mustnot g r ↔
      ∃ i, i < g.length ∧ g.getD i '?' = L ∧
        r.tags.getD i 0 = Response.ABSENT ∧ L ∉ must g r := by
  rw [mustnot, List.mem_toFinset]
  constructor
  · intro h
    rcases List.mem_map.mp h with ⟨p, hp, hsnd⟩
    rcases List.mem_filter.mp hp with ⟨hpe, hpred⟩
    obtain ⟨i, c⟩ := p
    rcases (mem_enum_char g i c).mp hpe with ⟨hi, hgd⟩
    have hpred2 : r.tags.getD i 0 = Response.ABSENT ∧ c ∉ must g r := by
      simpa using hpred
    subst hsnd
    exact ⟨i, hi, hgd, hpred2.1, hpred2.2⟩
  · rintro ⟨i, hi, hgd, htag, hnm⟩
    refine List.mem_map.mpr ⟨(i, L), ?_, rfl⟩
    refine List.mem_filter.mpr ⟨(mem_enum_char g i L).mpr ⟨hi, hgd⟩, ?_⟩
    have hconj : r.tags.getD i 0 = Response.ABSENT ∧ L ∉ must g r := ⟨htag, hnm⟩
    simpa using hconj

lemma mem_matchesOf (g : Word) (r : Response) (i : ℕ) (c : Char) :
    (i, c) ∈ matchesOf g r ↔
      (∃ _ : i < g.length, g.getD i '?' = c) ∧
        r.tags.getD i 0 = Response.CORRECT := by
  rw [matchesOf]
  constructor
  · intro h
    rcases List.mem_filter.mp h with ⟨hpe, hpred⟩
    exact ⟨(mem_enum_char g i c).mp hpe, by simpa using hpred⟩
  · rintro ⟨he, htag⟩
    refine List.mem_filter.mpr ⟨(mem_enum_char g i c).mpr he, ?_⟩
    simpa using htag

lemma pass2_finds_present (target guess : Word) (L : Char)
    (htL : ∃ j, j < target.length ∧ target.getD j '?' = L)
    (hgL : ∃ i, i < guess.length ∧ guess.getD i '?' = L)
    (hnc : ∀ i, i < guess.length → guess.getD i '?' = L →
      guess.getD i '?' ≠ target.getD i '?') :
    ∃ i, i < guess.length ∧ guess.getD i '?' = L ∧
      (pass2 target guess (pass1 target guess)).res i ≠ Response.ABSENT := by
  have hex : ∃ i, i < guess.length ∧ guess.getD i '?' = L := hgL
  obtain ⟨i0, hi0n, hi0L, hmin⟩ :
      ∃ i0, i0 < guess.length ∧ guess.getD i0 '?' = L ∧
        ∀ a, a < i0 → guess.getD a '?' ≠ L := by
    refine ⟨Nat.find hex, (Nat.find_spec hex).1, (Nat.find_spec hex).2, ?_⟩
    intro a ha hal
    exact Nat.find_min hex ha ⟨lt_trans ha (Nat.find_spec hex).1, hal⟩
  have hta1 : ∀ j, j < target.length → target.getD j '?' = L →
      (pass1 target guess).ta j = true := by
    intro j hj hjL
    rw [pass1_ta]
    rintro ⟨hjn, hjm⟩
    exact hnc j hjn (hjm.trans hjL) hjm
  have hga1 : (pass1 target guess).ga i0 = true := by
    rw [pass1_ga]
    rintro ⟨-, hm⟩
    exact hnc i0 hi0n hi0L hm
  obtain ⟨k, hk⟩ : ∃ k, guess.length - i0 = k + 1 := ⟨guess.length - i0 - 1, by omega⟩
  have happ : List.range' 0 i0 ++ List.range' (0 + 1 * i0) (k + 1)
      = List.range' 0 ((k + 1) + i0) := List.range'_append 0 i0 (k + 1) 1
  have hsplit : List.range guess.length
      = List.range' 0 i0 ++ i0 :: List.range' (i0 + 1) k := by
    rw [List.range_eq_range', show guess.length = (k + 1) + i0 by omega, ← happ]
    congr 1
    rw [show 0 + 1 * i0 = i0 by omega]
    rw [List.range'_succ i0 k 1]
  have hstep1 : ∀ s a, a ∈ List.range' 0 i0 →
      ((∀ i, s.ga i = (pass1 target guess).ga i) ∧
        (∀ j, j < target.length → target.getD j '?' = L → s.ta j = true)) →
      ((∀ i, (pass2Step target guess s a).ga i = (pass1 target guess).ga i) ∧
        (∀ j, j < target.length → target.getD j '?' = L →
          (pass2Step target guess s a).ta j = true)) := by
    intro s a ha hP
    have haR : a < i0 := by
      rcases List.mem_range'_1.mp ha with ⟨-, h2⟩
      simpa using h2
    have haL : guess.getD a '?' ≠ L := hmin a haR
    rw [pass2Step]
    by_cases hga : s.ga a = true
    · rw [if_pos hga]
      refine ⟨?_, ?_⟩
      · intro i
        rw [pass2Inner_ga]
        exact hP.1 i
      · intro j hj hjL
        exact (pass2Inner_ta target (guess.getD a '?') a s j).mpr
          ⟨hP.2 j hj hjL, fun hx => haL (hx.2.trans hjL)⟩
    · rw [if_neg hga]
      exact hP
  have hpre := foldl_inv (pass2Step target guess)
    (fun s => (∀ i, s.ga i = (pass1 target guess).ga i) ∧
      (∀ j, j < target.length → target.getD j '?' = L → s.ta j = true))
    (List.range' 0 i0) (pass1 target guess) hstep1 ⟨fun _ => rfl, hta1⟩
  obtain ⟨j0, hj0, hj0L⟩ := htL
  set s1 := (List.range' 0 i0).foldl (pass2Step target guess)
    (pass1 target guess) with hs1
  have hga2 : s1.ga i0 = true := by
    rw [hpre.1 i0]
    exact hga1
  have hhit : (pass2Step target guess s1 i0).res i0 = Response.PRESENT := by
    rw [pass2Step, if_pos hga2]
    apply pass2Inner_res_hit
    refine ⟨j0, hj0, hpre.2 j0 hj0 hj0L, ?_⟩
    rw [hi0L, hj0L]
  have hstep2 : ∀ s a, a ∈ List.range' (i0 + 1) k →
      s.res i0 ≠ Response.ABSENT →
      (pass2Step target guess s a).res i0 ≠ Response.ABSENT := by
    intro s a _ hP
    rw [pass2Step]
    by_cases hga : s.ga a = true
    · rw [if_pos hga]
      rcases eq_or_ne i0 a with rfl | hne
      · by_cases hex2 : ∃ j2, j2 < target.length ∧ s.ta j2 = true ∧
            guess.getD i0 '?' = target.getD j2 '?'
        · rw [pass2Inner_res_hit target (guess.getD i0 '?') i0 s hex2]
          decide
        · rw [pass2Inner_res_miss target (guess.getD i0 '?') i0 s hex2]
          exact hP
      · rw [pass2Inner_res_other target (guess.getD a '?') a s i0 hne]
        exact hP
    · rw [if_neg hga]
      exact hP
  have hfin := foldl_inv (pass2Step target guess)
    (fun s => s.res i0 ≠ Response.ABSENT)
    (List.range' (i0 + 1) k) (pass2Step target guess s1 i0) hstep2
    (by show (pass2Step target guess s1 i0).res i0 ≠ Response.ABSENT
        rw [hhit]
        decide)
  refine ⟨i0, hi0n, hi0L, ?_⟩
  show ((List.range guess.length).foldl (pass2Step target guess)
      (pass1 target guess)).res i0 ≠ Response.ABSENT
  rw [hsplit, List.foldl_append, List.foldl_cons]
  exact hfin

/-- The repaired `WordList.filter` (`filterFixed`, iterating the set itself
instead of the missing `self.words`) returns exactly the subset of words `w`
with `Response.from_guess(w, guess) == response` whenever all words have the
guess's length: the three quick pre-checks (`must`, `mustnot`, `matches`) are
necessary conditions, so the authoritative final recomputation alone decides
membership. -/
theorem filterFixed_exact (S : Finset Word) (g : Word) (r : Response)
    (hlen : ∀ w ∈ S, w.length = g.length) :
    filterFixed S g r = S.filter (fun w => Response.from_guess w g = r) := by
  apply Finset.ext
  intro w
  rw [filterFixed, Finset.mem_filter, Finset.mem_filter]
  constructor
  · rintro ⟨hw, -, -, -, hr⟩
    exact ⟨hw, hr⟩
  · rintro ⟨hw, hr⟩
    have hwlen : w.length = g.length := hlen w hw
    refine ⟨hw, ?_, ?_, ?_, hr⟩
    · intro L hL
      rcases (mem_must g r L).mp hL with ⟨i, hi, hgi, htag⟩
      rw [← hr, from_guess_tags_getD w g i hi] at htag
      rw [List.mem_toFinset]
      rcases res_values w g i with h0 | h1 | h2
      · exact absurd h0 htag
      · rcases pass2_present_src w g (pass1 w g) i h1 with hp1 | ⟨j, hj, hje⟩
        · rw [pass1_res] at hp1
          by_cases hc : i < g.length ∧ g.getD i '?' = w.getD i '?'
          · rw [if_pos hc] at hp1
            exact absurd hp1 (by decide)
          · rw [if_neg hc] at hp1
            exact absurd hp1 (by decide)
        · rw [← hgi, hje, List.getD_eq_getElem w '?' hj]
          exact List.getElem_mem hj
      · have hc := ((res_correct_iff w g i).mp h2).2
        have hiw : i < w.length := by omega
        rw [← hgi, hc, List.getD_eq_getElem w '?' hiw]
        exact List.getElem_mem hiw
    · rw [Finset.disjoint_left]
      intro L hL hLw
      rcases (mem_mustnot g r L).mp hL with ⟨i, hi, hgi, htag0, hnm⟩
      have habs : ∀ i2, i2 < g.length → g.getD i2 '?' = L →
          (pass2 w g (pass1 w g)).res i2 = Response.ABSENT := by
        intro i2 hi2 hg2
        by_contra hne
        apply hnm
        refine (mem_must g r L).mpr ⟨i2, hi2, hg2, ?_⟩
        rw [← hr, from_guess_tags_getD w g i2 hi2]
        exact hne
      rcases List.mem_iff_getElem.mp (List.mem_toFinset.mp hLw) with ⟨j, hj, hje⟩
      have hnc : ∀ i2, i2 < g.length → g.getD i2 '?' = L →
          g.getD i2 '?' ≠ w.getD i2 '?' := by
        intro i2 hi2 hg2 heq
        have h2 : (pass2 w g (pass1 w g)).res i2 = Response.CORRECT :=
          (res_correct_iff w g i2).mpr ⟨hi2, heq⟩
        have h3 := habs i2 hi2 hg2
        rw [h2] at h3
        exact absurd h3 (by decide)
      obtain ⟨i3, hi3, hgi3, hres3⟩ := pass2_finds_present w g L
        ⟨j, hj, by rw [List.getD_eq_getElem w '?' hj]; exact hje⟩
        ⟨i, hi, hgi⟩ hnc
      exact hres3 (habs i3 hi3 hgi3)
    · intro p hp
      rcases (mem_matchesOf g r p.1 p.2).mp hp with ⟨⟨hi, hgd⟩, htag⟩
      rw [← hr, from_guess_tags_getD w g p.1 hi] at htag
      have hc := ((res_correct_iff w g p.1).mp htag).2
      rw [← hc]
      exact hgd

/-- Round-trip for the repaired filter: every word it keeps reproduces the
filtered response. -/
theorem filterFixed_roundtrip (S : Finset Word) (g : Word) (r : Response) :
    ∀ w ∈ filterFixed S g r, Response.from_guess w g = r := by
  intro w hw
  exact ((Finset.mem_filter.mp hw).2).2.2.2

/-- Idempotence of the repaired filter. -/
theorem filterFixed_idem (S : Finset Word) (g : Word) (r : Response) :
    filterFixed (filterFixed S g r) g r = filterFixed S g r := by
  apply Finset.ext
  intro w
  simp only [filterFixed, Finset.mem_filter]
  tauto

end WordleBrute
